import Mathlib

/-!
Verification development for the madseq MAD-X sequence slicing tool.

This file gives a shallow embedding (in Lean 4) of the data model and the
transformation engine of the `madseq` package (`madseq/types.py`,
`madseq/transform.py`) and proves/refutes the frozen specification claims
against it.

Conventions of the embedding:
* Python `int` / `float` / `Decimal` values are embedded as `ℚ` (exact
  rational arithmetic); the textual rendering of non-integer numbers is
  abstracted (`numRepr`), since no claim observes the rendered digits of a
  non-integer.
* Fallible Python code (KeyError / TypeError / AttributeError / ValueError /
  failed assert) is embedded with `Except PyErr`.
* Case-insensitive strings (`stri`) and dicts (`dicti` / `odicti`) are
  embedded as `String` together with the comparison `strieq`, and as
  insertion-ordered association lists with case-insensitive keys.
-/

namespace Madseq

/-- Kinds of Python exceptions that the embedded code can signal. -/
inductive PyErr where
  | keyError (key : String)
  | typeError
  | attrError
  | valueError (msg : String)
  | assertError
  | indexError
deriving Repr, DecidableEq

/-- `str.lower()` on one character, for the ASCII range (MAD-X names are
ASCII). -/
def pyLowerChar (c : Char) : Char :=
  if 'A' ≤ c && c ≤ 'Z' then Char.ofNat (c.toNat + 32) else c

/-- `str.lower()` (ASCII). -/
def pyLower (s : String) : String := ⟨s.data.map pyLowerChar⟩

/-- Case-insensitive string comparison: `stri.__eq__` from `madseq/util.py`
(`self.lower() == str(other).lower()`). -/
def strieq (a b : String) : Bool := pyLower a == pyLower b

/-- Python `==` on optional `stri` values (as used for element names/types).
`stri(x) == None` compares against `str(None).lower() = "none"`. -/
def ostrieq : Option String → Option String → Bool
  | some a, some b => strieq a b
  | some a, none => pyLower a == "none"
  | none, some b => pyLower b == "none"
  | none, none => true

/-- Truthiness of an optional string (Python: `None` and `''` are falsy). -/
def truthyStr : Option String → Bool
  | some s => s ≠ ""
  | none => false

/-- Embedded Python values that flow through element arguments and the
transformation engine:
* `num`: Python `int` / `float` / `Decimal`;
* `str`: plain Python `str`;
* `vlist`: plain Python `list` (e.g. the `KNL` value built by
  `rescale_makethin`);
* `pynone`: Python `None`;
* `varray` / `ident` / `composed`: instances of the `Value` subclasses
  `Array`, `Identifier`, `Composed` from `madseq/types.py`, each carrying
  the payload of attribute `value` and the attribute `_assign` as stored by
  `Value.__init__`. -/
inductive Val where
  | num (q : ℚ)
  | str (s : String)
  | vlist (xs : List Val)
  | pynone
  | varray (items : List Val) (assign : String)
  | ident (name : String) (assign : String)
  | composed (expr : String) (assign : String)

/-- Rendering of a number.  `str(int)` is exact; for non-integers the code
renders `str(Decimal.normalize())`, which we abstract as `num/den`. -/
def numRepr (q : ℚ) : String :=
  if q.den = 1 then toString q.num else toString q.num ++ "/" ++ toString q.den

/-- The attribute dictionary of an embedded value, as populated by
`Value.__init__` in `madseq/types.py`: instances of `Value` subclasses carry
exactly the attributes `value` and `_assign`; built-in Python values carry
neither. -/
def Val.attrs : Val → List (String × Val)
  | .varray items assign => [("value", .vlist items), ("_assign", .str assign)]
  | .ident name assign => [("value", .str name), ("_assign", .str assign)]
  | .composed expr assign => [("value", .str expr), ("_assign", .str assign)]
  | _ => []

/-- Python `getattr(obj, name, default)`: attribute names are looked up
case-sensitively in the object's attribute dictionary. -/
def pygetattrD (v : Val) (name : String) (dflt : Val) : Val :=
  match (v.attrs.find? (fun p => p.1 == name)) with
  | some p => p.2
  | none => dflt

/-- The `_assign` attribute of a `Value` instance (`'='` or `':='`);
`none` for built-in values. -/
def Val.assignAttr : Val → Option String
  | .varray _ assign => some assign
  | .ident _ assign => some assign
  | .composed _ assign => some assign
  | _ => none

mutual

/-- Python `str()` of an embedded value (`Value.__str__` returns `expr`). -/
def pyStr : Val → String
  | .num q => numRepr q
  | .str s => s
  | .vlist xs => "[" ++ String.intercalate ", " (pyStrList xs) ++ "]"
  | .pynone => "None"
  | .varray items _ => "\x7b" ++ String.intercalate "," (pyStrList items) ++ "\x7d"
  | .ident name _ => name
  | .composed expr _ => expr

/-- `str()` mapped over a list of values. -/
def pyStrList : List Val → List String
  | [] => []
  | x :: xs => pyStr x :: pyStrList xs

end

mutual

/-- `format_value` from `madseq/types.py`: `Value` instances render via
`.expr`; `Decimal`/`int`/`float` as number text; `str` quoted; lists with
braces; anything else (`None`) raises `TypeError`. -/
def format_value : Val → Except PyErr String
  | .num q => .ok (numRepr q)
  | .str s => .ok ("\"" ++ s ++ "\"")
  | .vlist xs => do
      let parts ← format_value_list xs
      .ok ("\x7b" ++ String.intercalate "," parts ++ "\x7d")
  | .pynone => .error .typeError
  | .varray items a => .ok (pyStr (.varray items a))
  | .ident name a => .ok (pyStr (.ident name a))
  | .composed expr a => .ok (pyStr (.composed expr a))

/-- `format_value` mapped over a list of values. -/
def format_value_list : List Val → Except PyErr (List String)
  | [] => .ok []
  | x :: xs => do
      let s ← format_value x
      let rest ← format_value_list xs
      .ok (s :: rest)

end

/-- `format_safe` from `madseq/types.py`: uses `safe_expr` when available
(`Composed.safe_expr` adds parentheses; other `Value`s return `expr`),
otherwise `format_value`. -/
def format_safe : Val → Except PyErr String
  | .composed expr _ => .ok ("(" ++ expr ++ ")")
  | .varray items a => .ok (pyStr (.varray items a))
  | .ident name a => .ok (pyStr (.ident name a))
  | v => format_value v

/-- Python `==` restricted to the value types occurring in element
arguments.  `Value.__eq__` compares `other == self.value`, so `Value`
instances compare by payload (the `_assign` marker is ignored). -/
def pyEq (a b : Val) : Bool :=
  match a, b with
  | .num p, .num q => p == q
  | .str s, .str t => s == t
  | .pynone, .pynone => true
  | .vlist xs, .vlist ys => pyEqList xs ys
  | .vlist xs, .varray ys _ => pyEqList xs ys
  | .varray xs _, .vlist ys => pyEqList xs ys
  | .varray xs _, .varray ys _ => pyEqList xs ys
  | .ident n _, .str t => n == t
  | .str s, .ident m _ => s == m
  | .ident n _, .ident m _ => n == m
  | .composed e _, .str t => e == t
  | .str s, .composed f _ => s == f
  | .composed e _, .composed f _ => e == f
  | _, _ => false
where
  /-- Pointwise Python `==` on lists. -/
  pyEqList : List Val → List Val → Bool
  | [], [] => true
  | x :: xs, y :: ys => pyEq x y && pyEqList xs ys
  | _, _ => false

/-- `Composed.create` from `madseq/types.py`: builds the composed expression
text from the safe renderings of the operands, and marks it `':='` iff
`getattr(a, 'assign', '=')` or `getattr(b, 'assign', '=')` equals `':='`. -/
def Composed.create (a : Val) (x : String) (b : Val) : Except PyErr Val := do
  let delayed :=
    pyEq (pygetattrD a "assign" (.str "=")) (.str ":=") ||
    pyEq (pygetattrD b "assign" (.str "=")) (.str ":=")
  let fa ← format_safe a
  let fb ← format_safe b
  .ok (.composed (fa ++ " " ++ x ++ " " ++ fb)
        (if delayed then ":=" else "="))

/-- Is the value an instance of `Symbolic` (i.e. `Identifier` or `Composed`),
the classes carrying the overloaded arithmetic operators? -/
def Val.isSymbolic : Val → Bool
  | .ident _ _ => true
  | .composed _ _ => true
  | _ => false

/-- Python binary arithmetic on the embedded values, as dispatched by the
operator overloads in `madseq/types.py`: if either operand is `Symbolic`,
`Composed.create a op b` is used (`__binop` / `__rbinop`); two numbers
compute numerically; any other combination raises `TypeError`. -/
def pyArith (a : Val) (op : String) (b : Val) : Except PyErr Val :=
  if a.isSymbolic || b.isSymbolic then
    Composed.create a op b
  else
    match a, b with
    | .num p, .num q =>
      match op with
      | "+" => .ok (.num (p + q))
      | "-" => .ok (.num (p - q))
      | "*" => .ok (.num (p * q))
      | "/" => if q = 0 then .error (.valueError "division by zero")
               else .ok (.num (p / q))
      | _ => .error (.valueError "unknown operator")
    | _, _ => .error .typeError

/-! ## Argument dictionaries

Element arguments are stored in a `pydicti.odicti`: an insertion-ordered
dictionary with case-insensitive keys.  We embed it as an association list
with unique (up to case) keys. -/

/-- Ordered case-insensitive argument dictionary. -/
abbrev Args := List (String × Val)

/-- Dictionary lookup with case-insensitive keys. -/
def Args.lookup : Args → String → Option Val
  | [], _ => none
  | (k, v) :: rest, key => if strieq k key then some v else Args.lookup rest key

/-- `d[key] = val`: update in place if a case-equal key exists (keeping the
stored key and its position), else append. -/
def Args.set : Args → String → Val → Args
  | [], key, val => [(key, val)]
  | (k, v) :: rest, key, val =>
      if strieq k key then (k, val) :: rest
      else (k, v) :: Args.set rest key val

/-- `del d[key]`: drop the case-equal binding. -/
def Args.erase : Args → String → Args
  | [], _ => []
  | (k, v) :: rest, key =>
      if strieq k key then rest else (k, v) :: Args.erase rest key

/-- `d.setdefault(key, val)`. -/
def Args.setdefault (d : Args) (key : String) (val : Val) : Args :=
  match d.lookup key with
  | some _ => d
  | none => d ++ [(key, val)]

/-- `dst.update(src)`: set every binding of `src` into `dst` in order. -/
def Args.update (dst src : Args) : Args :=
  src.foldl (fun d p => Args.set d p.1 p.2) dst

/-- Python `==` of two argument dictionaries: same size and pointwise-equal
values under case-insensitive key lookup (dict equality is order-blind). -/
def Args.beq (a b : Args) : Bool :=
  a.length == b.length &&
  a.all (fun p => match b.lookup p.1 with
    | some w => pyEq p.2 w
    | none => false)

/-! ## Elements, text nodes and LINE statements -/

mutual

/-- `Element` from `madseq/types.py`: name, type, own argument dictionary and
an optional (non-owning, here structural) reference to a base object. -/
inductive Element where
  | mk (name : Option String) (etype : Option String) (args : Args)
       (base : Option Node)

/-- A document/sequence node: an `Element`, an opaque `Text` chunk, or a
`Line` statement (`name: LINE=(a,b,...)`). -/
inductive Node where
  | elem (e : Element)
  | text (s : String)
  | line (name : Option String) (elems : List String)

end

/-- Element name. -/
def Element.name : Element → Option String
  | .mk n _ _ _ => n

/-- Element type. -/
def Element.etype : Element → Option String
  | .mk _ t _ _ => t

/-- Element own arguments. -/
def Element.args : Element → Args
  | .mk _ _ a _ => a

/-- Element base reference. -/
def Element.base : Element → Option Node
  | .mk _ _ _ b => b

/-- Replace the own argument dictionary. -/
def Element.withArgs : Element → Args → Element
  | .mk n t _ b, a => .mk n t a b

/-- Replace the base reference (`elem._base = ...`). -/
def Element.withBase : Element → Option Node → Element
  | .mk n t a _, b => .mk n t a b

/-- Replace the name (`elem.name = ...`). -/
def Element.withName : Element → Option String → Element
  | .mk _ t a b, n => .mk n t a b

/-- `elem.copy()`: clone `(name, type, args.copy(), same base)`.  In the pure
value embedding a shallow copy coincides with the value itself; the heap
embedding below models the allocation explicitly. -/
def Element.copy (e : Element) : Element := e

/-- `node.type`: `Element.type`, `Text.type = None`, `Line.type = 'line'`. -/
def Node.ntype : Node → Option String
  | .elem e => e.etype
  | .text _ => none
  | .line _ _ => some "line"

/-- `node.name`: `Text.name = None`. -/
def Node.nname : Node → Option String
  | .elem e => e.name
  | .text _ => none
  | .line n _ => n

/-- Python truthiness of a base object: `None` is falsy, and a `Text` is a
`str` subclass, so the empty text is falsy too. -/
def baseTruthy : Option Node → Bool
  | none => false
  | some (.text s) => s ≠ ""
  | some _ => true

/-- `Element.__getitem__`: own args first, else `self._base[key]` when the
base is truthy (subscripting a non-Element base raises `TypeError`), else
`KeyError`. -/
def Element.getIt : Element → String → Except PyErr Val
  | .mk _ _ args base, key =>
    match args.lookup key with
    | some v => .ok v
    | none =>
      if baseTruthy base then
        match base with
        | some (.elem b) => b.getIt key
        | _ => .error .typeError
      else .error (.keyError key)

/-- `Element.get(key, default)`: like `__getitem__` but a `KeyError`
(and only a `KeyError`) falls back to the default. -/
def Element.getD (e : Element) (key : String) (dflt : Val) : Except PyErr Val :=
  match e.getIt key with
  | .ok v => .ok v
  | .error (.keyError _) => .ok dflt
  | .error err => .error err

/-- `Element.__contains__`: `key in self.args or (self._base and key in
self._base)`; membership in a non-Element truthy base raises `TypeError`
(a `Text` is a `str`, where `in` means substring). -/
def Element.hasKey : Element → String → Except PyErr Bool
  | .mk _ _ args base, key =>
    match args.lookup key with
    | some _ => .ok true
    | none =>
      if baseTruthy base then
        match base with
        | some (.elem b) => b.hasKey key
        | some (.text s) => .ok (((s.splitOn key).length) > 1)
        | _ => .error .typeError
      else .ok false

/-- `Element.base_type`: recurse through truthy bases to the root type name;
a non-Element truthy base has no `base_type` attribute (`AttributeError`). -/
def Element.base_type : Element → Except PyErr (Option String)
  | .mk _ t _ base =>
    if baseTruthy base then
      match base with
      | some (.elem b) => b.base_type
      | _ => .error .attrError
    else .ok t

/-- `Element.all_args`: merged arguments, base-first then updated with own
args; a falsy base contributes the empty dictionary. -/
def Element.all_args : Element → Except PyErr Args
  | .mk _ _ args base =>
    if baseTruthy base then
      match base with
      | some (.elem b) => do
          let bs ← b.all_args
          .ok (Args.update bs args)
      | _ => .error .attrError
    else .ok (Args.update [] args)

/-- `Element.pop(key, *default)`: remove and return the own argument; on a
`KeyError` read the key from the base (`self._base[key]`, where a falsy or
non-subscriptable base raises `TypeError`); `KeyError`/`TypeError` there fall
back to the default if one was supplied, else the error propagates.  Returns
the value together with the (possibly updated) element. -/
def Element.pop (e : Element) (key : String) (dflt : Option Val) :
    Except PyErr (Val × Element) :=
  match e.args.lookup key with
  | some v => .ok (v, e.withArgs (e.args.erase key))
  | none =>
    let fromBase : Except PyErr Val :=
      match e.base with
      | some (.elem b) => b.getIt key
      | _ => .error .typeError
    match fromBase with
    | .ok v => .ok (v, e)
    | .error (.keyError k) =>
        match dflt with
        | some d => .ok (d, e)
        | none => .error (.keyError k)
    | .error .typeError =>
        match dflt with
        | some d => .ok (d, e)
        | none => .error .typeError
    | .error err => .error err

/-- `Element.__setitem__`. -/
def Element.setIt (e : Element) (key : String) (val : Val) : Element :=
  e.withArgs (e.args.set key val)

/-- `Element.__delitem__` (own args only; missing key raises `KeyError`). -/
def Element.delIt (e : Element) (key : String) : Except PyErr Element :=
  match e.args.lookup key with
  | some _ => .ok (e.withArgs (e.args.erase key))
  | none => .error (.keyError key)

/-- `Element.__eq__`: compares name, type and the **own** argument
dictionary; the base reference does not participate. -/
def Element.beq (a b : Element) : Bool :=
  ostrieq a.name b.name && ostrieq a.etype b.etype && Args.beq a.args b.args

/-! ## Sequences and `Sequence.detect` -/

/-- `Sequence` from `madseq/types.py`: the element list
`[head, ...body..., tail]` plus the preface (template) node list. -/
structure Seqn where
  elements : List Node
  preface : List Node := []

/-- A node of the detected document: either an unmodified input node or a
generated `Sequence`. -/
inductive DocNode where
  | raw (n : Node)
  | seq (s : Seqn)

/-- `node.type == t` under `stri` comparison (`None` compares false against
any type name except the string `"none"`). -/
def nodeTypeIs (n : Node) (t : String) : Bool :=
  ostrieq n.ntype (some t)

/-- The `by_name` table of `Sequence.detect`:
`dicti((str(el.name), el) for el in elements if el.name)` — a later node of
the same (case-insensitive) name overwrites an earlier one; lookup of a
missing name is a `KeyError`. -/
def byNameLookup (ns : List Node) (key : String) : Option Node :=
  ns.foldl
    (fun acc n =>
      if truthyStr n.nname && strieq (n.nname.getD "") key then some n else acc)
    none

/-- Resolution of one referenced name in a LINE statement: `by_name[el_name]`
itself in inline mode, else a thin reference element
`Element(None, el_name, {}, by_name[el_name])`. -/
def lineEntry (byn : List Node) (inline : Bool) (el_name : String) :
    Except PyErr Node :=
  match byNameLookup byn el_name with
  | some nd => if inline then .ok nd else .ok (.elem (.mk none (some el_name) [] (some nd)))
  | none => .error (.keyError el_name)

/-- The scanning loop of `Sequence.detect`, written as a state machine over
the node list.  `pending = some (head, rev_group)` is the state inside the
inner `for elem in it:` loop that consumes nodes up to `endsequence`
(`rev_group` holds the consumed nodes in reverse); reaching the end of input
in that state is the failed `assert` (`AssertionError`).  In the state
`pending = none` the head of the list is dispatched on its type:
`'sequence'` injects `refer='entry'` into the head's own args and enters the
inner loop, `'line'` synthesizes a sequence from the `by_name` table
(a non-`Line` node of type `'line'` has no `.elems`: `AttributeError`), and
anything else is yielded unchanged. -/
def detectGo (byn : List Node) (inline : Bool)
    (pending : Option (Element × List Node)) :
    List Node → Except PyErr (List DocNode)
  | [] =>
    match pending with
    | some _ => .error .assertError
    | none => .ok []
  | n :: rest =>
    match pending with
    | some (hd, acc) =>
      if nodeTypeIs n "endsequence" then do
        let tl ← detectGo byn inline none rest
        .ok (.seq ⟨.elem hd :: (acc.reverse ++ [n]), []⟩ :: tl)
      else
        detectGo byn inline (some (hd, n :: acc)) rest
    | none =>
      if nodeTypeIs n "sequence" then
        match n with
        | .elem e =>
          detectGo byn inline
            (some (e.withArgs (e.args.setdefault "refer" (.str "entry")), []))
            rest
        | _ => .error .typeError
      else if nodeTypeIs n "line" then
        match n with
        | .line nm elems => do
          let body ← elems.mapM (lineEntry byn inline)
          let tl ← detectGo byn inline none rest
          .ok (.seq ⟨.elem (.mk nm (some "sequence") [("refer", .str "entry")] none) ::
                      (body ++ [.elem (.mk none (some "endsequence") [] none)]), []⟩ :: tl)
        | _ => .error .attrError
      else do
        let tl ← detectGo byn inline none rest
        .ok (.raw n :: tl)

/-- `Sequence.detect(elements, inline)` from `madseq/types.py`. -/
def Sequence.detect (elements : List Node) (inline : Bool := false) :
    Except PyErr (List DocNode) :=
  detectGo elements inline none elements

/-! ## The slicing configuration (`transform.py`) -/

/-- A selector record for one `ElementTransform` rule: a dictionary with the
optional keys `name`, `type`, `use_at`, `density`, `slice`, `makethin`,
`template`, `style`. -/
structure Selector where
  name : Option String := none
  type : Option String := none
  use_at : Option Bool := none
  density : Option ℚ := none
  slice : Option Int := none
  makethin : Option Bool := none
  template : Option Bool := none
  style : Option String := none

/-- `key in selector` for the known selector keys. -/
def Selector.hasKey (s : Selector) : String → Bool
  | "name" => s.name.isSome
  | "type" => s.type.isSome
  | "use_at" => s.use_at.isSome
  | "density" => s.density.isSome
  | "slice" => s.slice.isSome
  | "makethin" => s.makethin.isSome
  | "template" => s.template.isSome
  | "style" => s.style.isSome
  | _ => false

/-- `exclusive(mapping, *keys)` from `madseq/transform.py`: **returns** the
boolean `sum(key in mapping for key in keys) <= 1` (it does not raise). -/
def exclusive (mapping : Selector) (keys : List String) : Bool :=
  decide (keys.countP (fun k => mapping.hasKey k = true) ≤ 1)

/-- `rescale_thick` from `madseq/transform.py`: with ratio 1 the element is
returned as is; otherwise a copy gets `L` (and, for an `sbend` base type,
`angle`) multiplied by the ratio. -/
def rescale_thick (elem : Element) (ratio : ℚ) : Except PyErr Element :=
  if ratio = 1 then .ok elem
  else do
    let scaled := elem.copy
    let lv ← elem.getIt "L"
    let lv' ← pyArith lv "*" (.num ratio)
    let scaled := scaled.setIt "L" lv'
    let bt ← scaled.base_type
    if ostrieq bt (some "sbend") then do
      let av ← scaled.getIt "angle"
      let av' ← pyArith av "*" (.num ratio)
      .ok (scaled.setIt "angle" av')
    else .ok scaled

/-- `rescale_makethin` from `madseq/transform.py`: elements whose base type
is not `sbend`/`quadrupole`/`solenoid` pass through unchanged; a solenoid is
copied and gets `ksi`/`lrad`/`L=0`; otherwise a new element of type
`multipole` is built from the merged `all_args`, `sbend` turning `angle`
into `KNL=[angle*ratio]` (dropping `HGAP`), `quadrupole` turning `K1`/`K1S`
into `KNL=[0, K1*L*ratio]` / `KSL=[0, K1S*L*ratio]`; finally `L` is replaced
by `lrad = L*ratio`. -/
def rescale_makethin (elem : Element) (ratio : ℚ) : Except PyErr Element := do
  let bt ← elem.base_type
  if !(ostrieq bt (some "sbend") || ostrieq bt (some "quadrupole") ||
       ostrieq bt (some "solenoid")) then
    .ok elem
  else if ostrieq bt (some "solenoid") then do
    let e := elem.copy
    let ks ← e.getIt "KS"
    let l ← e.getIt "L"
    let v1 ← pyArith ks "*" l
    let v2 ← pyArith v1 "*" (.num ratio)
    let e := e.setIt "ksi" v2
    let l2 ← e.getIt "L"
    let v3 ← pyArith l2 "*" (.num ratio)
    let e := e.setIt "lrad" v3
    .ok (e.setIt "L" (.num 0))
  else do
    let allA ← elem.all_args
    let e : Element := .mk elem.name (some "multipole") allA none
    let e ← (if ostrieq bt (some "sbend") then do
        let (angle, e) ← e.pop "angle" none
        let v ← pyArith angle "*" (.num ratio)
        let e := e.setIt "KNL" (.vlist [v])
        let (_, e) ← e.pop "HGAP" (some .pynone)
        pure e
      else do
        let hk1 ← e.hasKey "K1"
        let e ← (if hk1 then do
            let k1 ← e.getIt "K1"
            let l ← e.getIt "L"
            let v1 ← pyArith k1 "*" l
            let v2 ← pyArith v1 "*" (.num ratio)
            let e := e.setIt "KNL" (.vlist [.num 0, v2])
            e.delIt "K1"
          else pure e)
        let hk1s ← e.hasKey "K1S"
        if hk1s then do
          let k1s ← e.getIt "K1S"
          let l ← e.getIt "L"
          let v1 ← pyArith k1s "*" l
          let v2 ← pyArith v1 "*" (.num ratio)
          let e := e.setIt "KSL" (.vlist [.num 0, v2])
          e.delIt "K1S"
        else pure e)
    let hL ← e.hasKey "L"
    if hL then do
      let (lv, e) ← e.pop "L" none
      let v ← pyArith lv "*" (.num ratio)
      .ok (e.setIt "lrad" v)
    else .ok e

/-- `ElementTransform.uniform_slice_distribution`: emit `slice_num` copies,
the i-th at `offset + (i + refer) * slice_len`, renaming a named element to
`name..i` when more than one slice is emitted. -/
def uniform_slice_distribution (elem : Element) (offset : Val) (refer : ℚ)
    (slice_num : Int) (slice_len : ℚ) : Except PyErr (List Node) :=
  (List.range slice_num.toNat).mapM (fun (slice_idx : ℕ) => do
    let slc := elem.copy
    let atv ← pyArith offset "+" (.num (((slice_idx : ℚ) + refer) * slice_len))
    let slc := slc.setIt "at" atv
    let slc :=
      if truthyStr slc.name && decide (slice_num > 1) then
        slc.withName (some ((elem.name.getD "") ++ ".." ++ toString slice_idx))
      else slc
    pure (Node.elem slc))

/-- `ElementTransform.uniform_slice_loop`: one anonymous template element
whose `at` is the symbolic `offset + (Identifier('i') + refer) * slice_len`,
wrapped in literal loop-control text nodes. -/
def uniform_slice_loop (elem : Element) (offset : Val) (refer : ℚ)
    (slice_num : Int) (slice_len : ℚ) : Except PyErr (List Node) := do
  let slc := elem.copy.withName none
  let s1 ← pyArith (.ident "i" "=") "+" (.num refer)
  let s2 ← pyArith s1 "*" (.num slice_len)
  let atv ← pyArith offset "+" s2
  let slc := slc.setIt "at" atv
  .ok [ .text "i = 0;",
        .text ("while (i < " ++ toString slice_num ++ ") \x7b"),
        .elem slc,
        .text "i = i + 1;",
        .text "\x7d" ]

/-- One `ElementTransform` rule after construction: the policy closures
stored by `ElementTransform.__init__`. -/
structure ETRule where
  matchF : Element → Except PyErr Bool
  get_position : Element → Val → Val → ℚ → Except PyErr Val
  get_slice_num : Val → Except PyErr Int
  rescale : Element → ℚ → Except PyErr Element
  maketempl : Element → List Element
  stripelem : Element → Element
  distribution : Element → Val → ℚ → Int → ℚ → Except PyErr (List Node)

/-- `ElementTransform.__init__(selector)` from `madseq/transform.py`.  The
two `exclusive(...)` calls are evaluated exactly as in the source: their
boolean results are bound and discarded, so a double-specified selector is
**not** rejected.  The only construction-time failure is an unknown
distribution style (`ValueError`). -/
def ElementTransform.init (selector : Selector) : Except PyErr ETRule := do
  let _chk_match := exclusive selector ["name", "type"]
  let matchF : Element → Except PyErr Bool :=
    match selector.name with
    | some nm => fun elem => .ok (ostrieq elem.name (some nm))
    | none =>
      match selector.type with
      | some ty => fun elem => do
          let bt ← elem.base_type
          .ok (ostrieq bt (some ty))
      | none => fun _ => .ok true
  let get_position : Element → Val → Val → ℚ → Except PyErr Val :=
    if selector.use_at.getD true then
      fun elem elem_len offset refer =>
        match elem.getIt "at" with
        | .ok atv => do
            let prod ← pyArith elem_len "*" (.num refer)
            pyArith atv "-" prod
        | .error (.keyError _) => .ok offset
        | .error err => .error err
    else
      fun _ _ offset _ => .ok offset
  let _chk_count := exclusive selector ["density", "slice"]
  let get_slice_num : Val → Except PyErr Int :=
    match selector.density with
    | some density => fun l => do
        let v ← pyArith l "*" (.num density)
        match v with
        | .num q => .ok ⌈|q|⌉
        | _ => .error .typeError
    | none =>
      let slice_num := selector.slice.getD 1
      fun _ => .ok slice_num
  let rescale := if selector.makethin.getD false then rescale_makethin else rescale_thick
  let (maketempl, stripelem) :
      (Element → List Element) × (Element → Element) :=
    if selector.template.getD false then
      (fun elem => [elem],
       fun elem => .mk none elem.name [] (some (.elem elem)))
    else
      (fun _ => [], fun elem => elem)
  let style := selector.style.getD "uniform"
  let distribution ←
    if style == "uniform" then pure uniform_slice_distribution
    else if style == "loop" then pure uniform_slice_loop
    else .error (.valueError ("Unknown slicing style: " ++ style))
  .ok ⟨matchF, get_position, get_slice_num, rescale, maketempl, stripelem,
       distribution⟩

/-- `ElementTransform.slice(elem, offset, refer)`: resolve the entry
position, the slice count (`or 1`), the slice length
`Decimal(elem_len)/slice_num` and the ratio `1/Decimal(slice_num)`, rescale,
split off templates, distribute, and return
`(templates, slices, offset + elem_len)`. -/
def ETRule.slice (r : ETRule) (elem : Element) (offset : Val) (refer : ℚ) :
    Except PyErr (List Element × List Node × Val) := do
  let elem_len ← elem.getD "L" (.num 0)
  let offset ← r.get_position elem elem_len offset refer
  let n0 ← r.get_slice_num elem_len
  let slice_num : Int := if n0 = 0 then 1 else n0
  let slice_len ← (match elem_len with
    | .num q => Except.ok (q / (slice_num : ℚ))
    | _ => Except.error PyErr.typeError)
  let scaled ← r.rescale elem (1 / (slice_num : ℚ))
  let templ := r.maketempl scaled
  let elem2 := r.stripelem scaled
  let elems ← r.distribution elem2 offset refer slice_num slice_len
  let newOff ← pyArith offset "+" elem_len
  .ok (templ, elems, newOff)

/-! ## `SequenceTransform` orchestration -/

/-- `SequenceTransform._offsets`: numeric offset multipliers per `refer`
name (a case-insensitive `dicti`). -/
def SequenceTransform.offsets : List (String × ℚ) :=
  [("entry", 0), ("centre", 1/2), ("exit", 1)]

/-- `self._offsets[key]`: case-insensitive lookup, `KeyError` on a miss. -/
def offsetsLookup (key : String) : Except PyErr ℚ :=
  match SequenceTransform.offsets.find? (fun p => strieq p.1 key) with
  | some p => .ok p.2
  | none => .error (.keyError key)

/-- The element definition table threaded through `Document.transform`
(a case-insensitive `dicti` mapping names to elements). -/
abbrev Defs := List (String × Element)

/-- `defs.get(key)`. -/
def Defs.get (d : Defs) (key : String) : Option Element :=
  match d.find? (fun p => strieq p.1 key) with
  | some p => some p.2
  | none => none

/-- `SequenceTransform.__init__(slicing)`: one rule per selector, plus the
implicit trailing catch-all rule built from the empty selector. -/
def SequenceTransform.init (slicing : List Selector) :
    Except PyErr (List ETRule) := do
  let ts ← slicing.mapM ElementTransform.init
  let catchAll ← ElementTransform.init {}
  .ok (ts ++ [catchAll])

/-- Select the first rule whose `match` accepts the element (the rule list
always ends with the catch-all, so `none` is unreachable in practice). -/
def firstMatch : List ETRule → Element → Except PyErr (Option ETRule)
  | [], _ => .ok none
  | t :: ts, e => do
    let m ← t.matchF e
    if m then .ok (some t) else firstMatch ts e

/-- `elem._base = defs.get(elem.type)` from the `transform` closure. -/
def rebased (defs : Defs) (e : Element) : Element :=
  e.withBase ((Defs.get defs (e.etype.getD "")).map Node.elem)

/-- The body of the `transform(elem, offset)` closure in
`SequenceTransform.__call__`: rebind the element's base from the definition
table, then apply the first matching rule's `slice`.  An unmatched element
makes the caller unpack `None` (`TypeError`). -/
def transformElem (transforms : List ETRule) (defs : Defs) (e : Element)
    (position : Val) (refer : ℚ) :
    Except PyErr (List Element × List Node × Val) := do
  let e := rebased defs e
  match (← firstMatch transforms e) with
  | some t => t.slice e position refer
  | none => .error .typeError

/-- State of the body fold in `SequenceTransform.__call__`:
accumulated template nodes, accumulated output nodes, running position. -/
structure CallAcc where
  templates : List Node
  elements : List Node
  position : Val

/-- One step of the body loop of `SequenceTransform.__call__`: an element
with truthy type is transformed (a `Line` node has a truthy type `'line'`
but no `get` method, so it crashes inside `slice`: `AttributeError`);
any other node is appended unchanged. -/
def callStep (transforms : List ETRule) (defs : Defs) (refer : ℚ)
    (acc : CallAcc) (n : Node) : Except PyErr CallAcc :=
  if truthyStr n.ntype then
    match n with
    | .elem e => do
        let (templ, elems, position) ←
          transformElem transforms defs e acc.position refer
        .ok ⟨acc.templates ++ templ.map Node.elem, acc.elements ++ elems,
             position⟩
    | _ => .error .attrError
  else
    .ok ⟨acc.templates, acc.elements ++ [n], acc.position⟩

/-- `SequenceTransform.__call__` on a `Sequence` node (`transform.py` lines
53-83): copy the head, resolve the `refer` multiplier from
`head.get('refer', 'centre')`, fold the body through the rules, store the
final running position as `head['L']`, and wrap any templates in marker
text nodes as the new preface. -/
def SequenceTransform.callSeq (transforms : List ETRule) (defs : Defs)
    (node : Seqn) : Except PyErr Seqn := do
  let head ← (match node.elements.head? with
    | some (.elem e) => Except.ok e.copy
    | some _ => Except.error PyErr.attrError
    | none => Except.error PyErr.indexError)
  let body := (node.elements.drop 1).dropLast
  let tail ← (match node.elements.getLast? with
    | some t => Except.ok t
    | none => Except.error PyErr.indexError)
  let refv ← head.getD "refer" (.str "centre")
  let refer ← offsetsLookup (pyStr refv)
  let acc ← body.foldlM (callStep transforms defs refer) ⟨[], [], .num 0⟩
  let head := head.setIt "L" acc.position
  let templates :=
    if acc.templates.isEmpty then acc.templates
    else
      Node.text ("! Template elements for " ++
        (match head.name with | some s => s | none => "None") ++ ":") ::
      (acc.templates ++ [Node.text ""])
  .ok ⟨.elem head :: acc.elements ++ [tail], templates⟩

/-! ## Named rule values

These name the `ETRule` values produced by `ElementTransform.__init__` for
particular selectors, so that theorems can refer to them. -/

/-- The catch-all rule built from the empty selector (the implicit default
appended by `SequenceTransform.__init__`). -/
def defaultRule : ETRule :=
  match ElementTransform.init {} with
  | .ok r => r
  | .error _ =>
    ⟨fun _ => .ok true, fun _ _ o _ => .ok o, fun _ => .ok 1, rescale_thick,
     fun _ => [], fun e => e, uniform_slice_distribution⟩

/-- The rule built from the selector `{slice: N}` (uniform style, thick
rescale, no template, `use_at` on). -/
def sliceRule (n : Int) : ETRule :=
  match ElementTransform.init {slice := some n} with
  | .ok r => r
  | .error _ => defaultRule

/-! ## Spec-side predicates -/

/-- Spec-side well-formedness of a node list for `Sequence.detect`, stated
by list splitting (independently of the scanning state machine): every
element of type `sequence` opens a group that is closed by a node of type
`endsequence` before end of input, and every LINE statement references only
defined names.  `defined` is the name table predicate. -/
inductive WellScanned (defined : String → Prop) : List Node → Prop where
  | nil : WellScanned defined []
  | seq {n : Node} {g r : List Node} {e : Node} :
      nodeTypeIs n "sequence" = true →
      (∀ x ∈ g, nodeTypeIs x "endsequence" = false) →
      nodeTypeIs e "endsequence" = true →
      WellScanned defined r →
      WellScanned defined (n :: (g ++ e :: r))
  | line {nm : Option String} {elems : List String} {rest : List Node} :
      nodeTypeIs (.line nm elems) "sequence" = false →
      (∀ x ∈ elems, defined x) →
      WellScanned defined rest →
      WellScanned defined (.line nm elems :: rest)
  | other {n : Node} {rest : List Node} :
      nodeTypeIs n "sequence" = false →
      nodeTypeIs n "line" = false →
      WellScanned defined rest →
      WellScanned defined (n :: rest)

/-- Did the computation succeed (no Python exception)? -/
def exOk {α : Type} : Except PyErr α → Bool
  | .ok _ => true
  | .error _ => false

/-- The length contributed by one body node to the spec-side length sum:
`elem.get('L', 0)` of a transformed (base-rebound) element with truthy type,
read as a number; `0` for pass-through nodes. -/
def nodeLen (defs : Defs) (n : Node) : ℚ :=
  match n with
  | .elem e =>
    if truthyStr e.etype then
      match (rebased defs e).getD "L" (.num 0) with
      | .ok (.num q) => q
      | _ => 0
    else 0
  | _ => 0

/-- Body-node precondition for the amended head-length claim: an element
node with truthy type must have no reachable `at` argument (after base
rebinding) and a numeric `elem.get('L', 0)`. -/
def NodeNoAt (defs : Defs) (n : Node) : Prop :=
  match n with
  | .elem e =>
    truthyStr e.etype = true →
      ((rebased defs e).getIt "at" = .error (.keyError "at") ∧
       ∃ l : ℚ, (rebased defs e).getD "L" (.num 0) = .ok (.num l))
  | _ => True

/-- The `L` argument of an emitted slice node, as a number (`0` when absent
or non-numeric): used to state the slice-length conservation sum. -/
def sliceLenOf (n : Node) : ℚ :=
  match n with
  | .elem e =>
    match e.args.lookup "L" with
    | some (.num q) => q
    | _ => 0
  | _ => 0

/-! ## Concrete instances used by counterexamples and witnesses -/

/-- Quadrupole `{K1: 3, L: 2.5}` from the spec's makethin example. -/
def quadEx : Element :=
  .mk none (some "QUADRUPOLE") [("K1", .num 3), ("L", .num (5/2))] none

/-- Prototype-chain example root: `{a:'a0', b:'b0', c:'c0'}`. -/
def chainBase : Element :=
  .mk none none [("a", .str "a0"), ("b", .str "b0"), ("c", .str "c0")] none

/-- Prototype-chain example middle layer: `{a:'a1', d:'d1'}`, base = root. -/
def chainMid : Element :=
  .mk none none [("a", .str "a1"), ("d", .str "d1")] (some (.elem chainBase))

/-- Prototype-chain example leaf: `{a:'a2'}`, base = middle. -/
def chainLeaf : Element :=
  .mk none none [("a", .str "a2")] (some (.elem chainMid))

/-- Sequence head `S: sequence, refer=entry`. -/
def headEntry : Element :=
  .mk (some "S") (some "sequence") [("refer", .str "entry")] none

/-- Body element `Q: quadrupole, at=5, L=2` (an explicit `at` differing from
the running offset). -/
def quadAt5 : Element :=
  .mk (some "Q") (some "quadrupole") [("at", .num 5), ("L", .num 2)] none

/-- Body element `Q: quadrupole, L=2` (no explicit `at`). -/
def quadNoAt : Element :=
  .mk (some "Q") (some "quadrupole") [("L", .num 2)] none

/-- The `endsequence` terminator element. -/
def endSeqElem : Element := .mk none (some "endsequence") [] none

/-- Sequence `S: sequence, refer=entry; Q: quadrupole, at=5, L=2;
endsequence;`. -/
def seqWithAt : Seqn := ⟨[.elem headEntry, .elem quadAt5, .elem endSeqElem], []⟩

/-- Sequence `S: sequence, refer=entry; Q: quadrupole, L=2; endsequence;`. -/
def seqNoAt : Seqn := ⟨[.elem headEntry, .elem quadNoAt, .elem endSeqElem], []⟩

/-- A sequence head without a `refer` argument. -/
def headNoRefer : Element := .mk (some "S") (some "sequence") [] none

/-- Unterminated input: a `sequence` element with no `endsequence` before
end of input. -/
def untermInput : List Node := [.elem headNoRefer]

/-- A LINE statement referencing the undefined name `B`. -/
def lineUndefInput : List Node := [.line (some "LN") ["B"]]

/-- A well-formed two-node sequence input. -/
def seqPairInput : List Node := [.elem headNoRefer, .elem endSeqElem]

/-- A base element supplying `m = 'm1'`. -/
def eqBase1 : Element := .mk none none [("m", .str "m1")] none

/-- A base element supplying `m = 'm2'`. -/
def eqBase2 : Element := .mk none none [("m", .str "m2")] none

/-- `E: t, k='v'` with base `eqBase1`. -/
def eqX : Element := .mk (some "E") (some "t") [("k", .str "v")] (some (.elem eqBase1))

/-- `E: t, k='v'` with base `eqBase2`. -/
def eqY : Element := .mk (some "E") (some "t") [("k", .str "v")] (some (.elem eqBase2))

/-! ## Heap embedding of `ElementTransform.slice`

The pure embedding above cannot express object mutation, so the frame
property of `slice` ("must not mutate the input element") is stated over an
explicit heap: element objects live at numeric addresses, `copy`/`Element()`
allocate, and `elem[k] = v` / `del elem[k]` / `elem.pop(k)` /
`elem.name = ...` write through the address.  Base references are embedded
as addresses (covering element-valued bases; a `None` base is `none`).
Base-chain reads take explicit fuel and fail on exhaustion, standing for
Python's recursion limit on cyclic chains. -/

/-- One element object on the heap. -/
structure HObj where
  name : Option String
  etype : Option String
  args : Args
  base : Option Nat

/-- The heap: the object at address `a` is the list entry at index `a`;
allocation appends. -/
abbrev Heap := List HObj

/-- Output node of a heap distribution: an element address or a text. -/
inductive HNode where
  | addr (a : Nat)
  | text (s : String)

/-- Allocate a fresh object, returning the new heap and its address. -/
def Heap.alloc (h : Heap) (o : HObj) : Heap × Nat := (h ++ [o], h.length)

/-- `elem.copy()` on the heap: clone the object at `a` into a fresh
address. -/
def hCopy (h : Heap) (a : Nat) : Except PyErr (Heap × Nat) :=
  match h[a]? with
  | some o => .ok (Heap.alloc h o)
  | none => .error (.valueError "dangling address")

/-- The name of the object at `a` (`none` when dangling). -/
def hName (h : Heap) (a : Nat) : Option String :=
  match h[a]? with
  | some o => o.name
  | none => none

/-- `elem[k] = v` on the heap (no-op on a dangling address, which the
embedded flows never produce). -/
def hSetIt (h : Heap) (a : Nat) (key : String) (v : Val) : Heap :=
  match h[a]? with
  | some o => h.set a { o with args := o.args.set key v }
  | none => h

/-- `elem.name = nm` on the heap. -/
def hSetName (h : Heap) (a : Nat) (nm : Option String) : Heap :=
  match h[a]? with
  | some o => h.set a { o with name := nm }
  | none => h

/-- `del elem[k]` on the heap. -/
def hDelIt (h : Heap) (a : Nat) (key : String) : Except PyErr Heap :=
  match h[a]? with
  | some o =>
    match o.args.lookup key with
    | some _ => .ok (h.set a { o with args := o.args.erase key })
    | none => .error (.keyError key)
  | none => .error (.valueError "dangling address")

/-- `Element.__getitem__` on the heap, with fuel for the base chain. -/
def hGetIt (h : Heap) : Nat → Nat → String → Except PyErr Val
  | 0, _, _ => .error (.valueError "recursion limit")
  | fuel + 1, a, key =>
    match h[a]? with
    | none => .error (.valueError "dangling address")
    | some o =>
      match o.args.lookup key with
      | some v => .ok v
      | none =>
        match o.base with
        | some b => hGetIt h fuel b key
        | none => .error (.keyError key)

/-- `Element.get(key, default)` on the heap. -/
def hGetD (h : Heap) (fuel a : Nat) (key : String) (dflt : Val) :
    Except PyErr Val :=
  match hGetIt h fuel a key with
  | .ok v => .ok v
  | .error (.keyError _) => .ok dflt
  | .error err => .error err

/-- `key in elem` on the heap. -/
def hContains (h : Heap) : Nat → Nat → String → Except PyErr Bool
  | 0, _, _ => .error (.valueError "recursion limit")
  | fuel + 1, a, key =>
    match h[a]? with
    | none => .error (.valueError "dangling address")
    | some o =>
      match o.args.lookup key with
      | some _ => .ok true
      | none =>
        match o.base with
        | some b => hContains h fuel b key
        | none => .ok false

/-- `elem.base_type` on the heap. -/
def hBaseType (h : Heap) : Nat → Nat → Except PyErr (Option String)
  | 0, _ => .error (.valueError "recursion limit")
  | fuel + 1, a =>
    match h[a]? with
    | none => .error (.valueError "dangling address")
    | some o =>
      match o.base with
      | some b => hBaseType h fuel b
      | none => .ok o.etype

/-- `elem.all_args` on the heap. -/
def hAllArgs (h : Heap) : Nat → Nat → Except PyErr Args
  | 0, _ => .error (.valueError "recursion limit")
  | fuel + 1, a =>
    match h[a]? with
    | none => .error (.valueError "dangling address")
    | some o =>
      match o.base with
      | some b => do
          let bs ← hAllArgs h fuel b
          .ok (Args.update bs o.args)
      | none => .ok (Args.update [] o.args)

/-- `elem.pop(key, *default)` on the heap: removes from the own args when
present; a base miss or an unsubscriptable base falls back to the default. -/
def hPop (h : Heap) (a : Nat) (key : String) (dflt : Option Val) :
    Except PyErr (Val × Heap) :=
  match h[a]? with
  | none => .error (.valueError "dangling address")
  | some o =>
    match o.args.lookup key with
    | some v => .ok (v, h.set a { o with args := o.args.erase key })
    | none =>
      let fromBase : Except PyErr Val :=
        match o.base with
        | some b => hGetIt h h.length b key
        | none => .error .typeError
      match fromBase with
      | .ok v => .ok (v, h)
      | .error (.keyError k) =>
          match dflt with
          | some d => .ok (d, h)
          | none => .error (.keyError k)
      | .error .typeError =>
          match dflt with
          | some d => .ok (d, h)
          | none => .error .typeError
      | .error err => .error err

/-- `rescale_thick` on the heap (writes only into the fresh copy). -/
def hRescaleThick (h : Heap) (a : Nat) (ratio : ℚ) :
    Except PyErr (Heap × Nat) :=
  if ratio = 1 then .ok (h, a)
  else do
    let (h, scaled) ← hCopy h a
    let lv ← hGetIt h h.length a "L"
    let lv' ← pyArith lv "*" (.num ratio)
    let h := hSetIt h scaled "L" lv'
    let bt ← hBaseType h h.length scaled
    if ostrieq bt (some "sbend") then do
      let av ← hGetIt h h.length scaled "angle"
      let av' ← pyArith av "*" (.num ratio)
      .ok (hSetIt h scaled "angle" av', scaled)
    else .ok (h, scaled)

/-- `rescale_makethin` on the heap (writes only into fresh objects). -/
def hRescaleMakethin (h : Heap) (a : Nat) (ratio : ℚ) :
    Except PyErr (Heap × Nat) := do
  let bt ← hBaseType h h.length a
  if !(ostrieq bt (some "sbend") || ostrieq bt (some "quadrupole") ||
       ostrieq bt (some "solenoid")) then
    .ok (h, a)
  else if ostrieq bt (some "solenoid") then do
    let (h, e) ← hCopy h a
    let ks ← hGetIt h h.length e "KS"
    let l ← hGetIt h h.length e "L"
    let v1 ← pyArith ks "*" l
    let v2 ← pyArith v1 "*" (.num ratio)
    let h := hSetIt h e "ksi" v2
    let l2 ← hGetIt h h.length e "L"
    let v3 ← pyArith l2 "*" (.num ratio)
    let h := hSetIt h e "lrad" v3
    .ok (hSetIt h e "L" (.num 0), e)
  else do
    let allA ← hAllArgs h h.length a
    let (h, e) := Heap.alloc h ⟨hName h a, some "multipole", allA, none⟩
    let h ← (if ostrieq bt (some "sbend") then do
        let (angle, h) ← hPop h e "angle" none
        let v ← pyArith angle "*" (.num ratio)
        let h := hSetIt h e "KNL" (.vlist [v])
        let (_, h) ← hPop h e "HGAP" (some .pynone)
        pure h
      else do
        let hk1 ← hContains h h.length e "K1"
        let h ← (if hk1 then do
            let k1 ← hGetIt h h.length e "K1"
            let l ← hGetIt h h.length e "L"
            let v1 ← pyArith k1 "*" l
            let v2 ← pyArith v1 "*" (.num ratio)
            let h := hSetIt h e "KNL" (.vlist [.num 0, v2])
            hDelIt h e "K1"
          else pure h)
        let hk1s ← hContains h h.length e "K1S"
        if hk1s then do
          let k1s ← hGetIt h h.length e "K1S"
          let l ← hGetIt h h.length e "L"
          let v1 ← pyArith k1s "*" l
          let v2 ← pyArith v1 "*" (.num ratio)
          let h := hSetIt h e "KSL" (.vlist [.num 0, v2])
          hDelIt h e "K1S"
        else pure h)
    let hL ← hContains h h.length e "L"
    if hL then do
      let (lv, h) ← hPop h e "L" none
      let v ← pyArith lv "*" (.num ratio)
      .ok (hSetIt h e "lrad" v, e)
    else .ok (h, e)

/-- `uniform_slice_distribution` on the heap: every emitted slice is a fresh
copy; renaming and `at` assignment write into the copies only. -/
def hUniformDist (h : Heap) (a : Nat) (offset : Val) (refer : ℚ)
    (slice_num : Int) (slice_len : ℚ) : Except PyErr (Heap × List HNode) :=
  (List.range slice_num.toNat).foldlM
    (fun (st : Heap × List HNode) (slice_idx : ℕ) => do
      let (h, outs) := st
      let (h, slc) ← hCopy h a
      let atv ← pyArith offset "+" (.num (((slice_idx : ℚ) + refer) * slice_len))
      let h := hSetIt h slc "at" atv
      let h :=
        if truthyStr (hName h slc) && decide (slice_num > 1) then
          hSetName h slc (some ((hName h a).getD "" ++ ".." ++ toString slice_idx))
        else h
      pure (h, outs ++ [HNode.addr slc]))
    (h, [])

/-- `uniform_slice_loop` on the heap. -/
def hLoopDist (h : Heap) (a : Nat) (offset : Val) (refer : ℚ)
    (slice_num : Int) (slice_len : ℚ) : Except PyErr (Heap × List HNode) := do
  let (h, slc) ← hCopy h a
  let h := hSetName h slc none
  let s1 ← pyArith (.ident "i" "=") "+" (.num refer)
  let s2 ← pyArith s1 "*" (.num slice_len)
  let atv ← pyArith offset "+" s2
  let h := hSetIt h slc "at" atv
  .ok (h, [.text "i = 0;",
           .text ("while (i < " ++ toString slice_num ++ ") \x7b"),
           .addr slc,
           .text "i = i + 1;",
           .text "\x7d"])

/-- A constructed `ElementTransform` rule over the heap (the fields of
`ElementTransform.__init__` that `slice` uses). -/
structure HRule where
  get_position : Heap → Nat → Val → Val → ℚ → Except PyErr Val
  get_slice_num : Val → Except PyErr Int
  rescale : Heap → Nat → ℚ → Except PyErr (Heap × Nat)
  maketempl : Nat → List Nat
  stripelem : Heap → Nat → Except PyErr (Heap × Nat)
  distribution : Heap → Nat → Val → ℚ → Int → ℚ → Except PyErr (Heap × List HNode)

/-- `ElementTransform.__init__` over the heap: same policy resolution as
`ElementTransform.init`, with the heap-threading closures. -/
def hInit (selector : Selector) : Except PyErr HRule := do
  let _chk_match := exclusive selector ["name", "type"]
  let get_position : Heap → Nat → Val → Val → ℚ → Except PyErr Val :=
    if selector.use_at.getD true then
      fun h a elem_len offset refer =>
        match hGetIt h h.length a "at" with
        | .ok atv => do
            let prod ← pyArith elem_len "*" (.num refer)
            pyArith atv "-" prod
        | .error (.keyError _) => .ok offset
        | .error err => .error err
    else
      fun _ _ _ offset _ => .ok offset
  let _chk_count := exclusive selector ["density", "slice"]
  let get_slice_num : Val → Except PyErr Int :=
    match selector.density with
    | some density => fun l => do
        let v ← pyArith l "*" (.num density)
        match v with
        | .num q => .ok ⌈|q|⌉
        | _ => .error .typeError
    | none =>
      let slice_num := selector.slice.getD 1
      fun _ => .ok slice_num
  let rescale := if selector.makethin.getD false then hRescaleMakethin else hRescaleThick
  let (maketempl, stripelem) :
      (Nat → List Nat) × (Heap → Nat → Except PyErr (Heap × Nat)) :=
    if selector.template.getD false then
      (fun a => [a],
       fun h a => .ok (Heap.alloc h ⟨none, hName h a, [], some a⟩))
    else
      (fun _ => [], fun h a => .ok (h, a))
  let style := selector.style.getD "uniform"
  let distribution ←
    if style == "uniform" then pure hUniformDist
    else if style == "loop" then pure hLoopDist
    else .error (.valueError ("Unknown slicing style: " ++ style))
  .ok ⟨get_position, get_slice_num, rescale, maketempl, stripelem,
       distribution⟩

/-- `ElementTransform.slice` over the heap. -/
def hSlice (r : HRule) (h : Heap) (a : Nat) (offset : Val) (refer : ℚ) :
    Except PyErr (Heap × List Nat × List HNode × Val) := do
  let elem_len ← hGetD h h.length a "L" (.num 0)
  let offset ← r.get_position h a elem_len offset refer
  let n0 ← r.get_slice_num elem_len
  let slice_num : Int := if n0 = 0 then 1 else n0
  let slice_len ← (match elem_len with
    | .num q => Except.ok (q / (slice_num : ℚ))
    | _ => Except.error PyErr.typeError)
  let (h, scaled) ← r.rescale h a (1 / (slice_num : ℚ))
  let templ := r.maketempl scaled
  let (h, elem2) ← r.stripelem h scaled
  let (h, elems) ← r.distribution h elem2 offset refer slice_num slice_len
  let newOff ← pyArith offset "+" elem_len
  .ok (h, templ, elems, newOff)

/-- Frame relation: `h1` extends `h0` and agrees with it on every address
that already existed in `h0`. -/
def Preserves (h0 h1 : Heap) : Prop :=
  h0.length ≤ h1.length ∧ ∀ b, b < h0.length → h1[b]? = h0[b]?

/-- A one-element heap holding a drift, for the concrete slice run. -/
def hW : Heap := [⟨some "D", some "drift", [("L", Val.num 2)], none⟩]

/-- The heap after slicing the drift of `hW` with the all-defaults selector:
the original object is untouched and the single slice is a fresh clone with
its computed `at`. -/
def hWpost : Heap :=
  hW ++ [⟨some "D", some "drift", [("L", Val.num 2), ("at", Val.num 0)], none⟩]

/-! # Theorems

Shared helper lemmas first, then one main theorem per claim (with its
witness / counterexample theorems). -/

/-- A `Value` instance stores `value` and `_assign`; no embedded object has
an attribute called `assign`, so `getattr(x, 'assign', d)` always yields the
default. -/
theorem pygetattrD_assign (v : Val) (d : Val) :
    pygetattrD v "assign" d = d := by
  cases v <;> rfl

/-- Adding two numbers. -/
theorem pyArith_num_add (p q : ℚ) :
    pyArith (.num p) "+" (.num q) = .ok (.num (p + q)) := rfl

/-- Subtracting two numbers. -/
theorem pyArith_num_sub (p q : ℚ) :
    pyArith (.num p) "-" (.num q) = .ok (.num (p - q)) := rfl

/-- Multiplying two numbers. -/
theorem pyArith_num_mul (p q : ℚ) :
    pyArith (.num p) "*" (.num q) = .ok (.num (p * q)) := rfl

/-- Case-insensitive comparison is reflexive. -/
theorem strieq_self (s : String) : strieq s s = true := by
  simp [strieq]

/-- `==` after setting a key, looking the same key up. -/
theorem Args.lookup_set_self (a : Args) (k : String) (v : Val) :
    (Args.set a k v).lookup k = some v := by
  induction a with
  | nil => simp [Args.set, Args.lookup, strieq_self]
  | cons p rest ih =>
    by_cases h : strieq p.1 k = true
    · simp [Args.set, Args.lookup, h]
    · simp only [Bool.not_eq_true] at h
      simp [Args.set, Args.lookup, h, ih]

/-- Setting a key to the value it already has leaves the dictionary
unchanged. -/
theorem Args.set_lookup_eq (a : Args) (k : String) (v : Val)
    (h : a.lookup k = some v) : Args.set a k v = a := by
  induction a with
  | nil => simp [Args.lookup] at h
  | cons p rest ih =>
    by_cases hk : strieq p.1 k = true
    · simp only [Args.lookup, hk, if_true, Option.some.injEq] at h
      simp [Args.set, hk, ← h]
    · simp only [Bool.not_eq_true] at hk
      simp only [Args.lookup, hk, Bool.false_eq_true, if_false] at h
      simp [Args.set, hk, ih h]

/-- In a dictionary with pairwise distinct (case-insensitive) keys, every
stored pair is found by lookup. -/
theorem Args.lookup_of_mem (a : Args)
    (hwf : a.Pairwise (fun p q => strieq p.1 q.1 = false))
    {p : String × Val} (hp : p ∈ a) : a.lookup p.1 = some p.2 := by
  induction a with
  | nil => cases hp
  | cons q rest ih =>
    rcases List.mem_cons.mp hp with rfl | hmem
    · simp [Args.lookup, strieq_self]
    · have hne : strieq q.1 p.1 = false :=
        (List.pairwise_cons.mp hwf).1 p hmem
      simp only [Args.lookup, hne, Bool.false_eq_true, if_false]
      exact ih (List.pairwise_cons.mp hwf).2 hmem

/-- Projection of `withArgs`. -/
theorem Element.args_withArgs (e : Element) (a : Args) :
    (e.withArgs a).args = a := by cases e; rfl

/-- `withArgs` keeps the name. -/
theorem Element.name_withArgs (e : Element) (a : Args) :
    (e.withArgs a).name = e.name := by cases e; rfl

/-- `withArgs` keeps the type. -/
theorem Element.etype_withArgs (e : Element) (a : Args) :
    (e.withArgs a).etype = e.etype := by cases e; rfl

/-- `withArgs` keeps the base. -/
theorem Element.base_withArgs (e : Element) (a : Args) :
    (e.withArgs a).base = e.base := by cases e; rfl

/-- A key found in the element's own args is returned directly. -/
theorem Element.getIt_own (e : Element) (k : String) (v : Val)
    (h : e.args.lookup k = some v) : e.getIt k = .ok v := by
  obtain ⟨nm, ty, args, base⟩ := e
  simp only [Element.args] at h
  rcases base with _ | n
  · rw [Element.getIt.eq_2 _ _ _ _ _ (by intro b hb; simp at hb), h]
  · cases n with
    | elem b => rw [Element.getIt.eq_1, h]
    | text s => rw [Element.getIt.eq_2 _ _ _ _ _ (by intro b hb; simp at hb), h]
    | line lm ls => rw [Element.getIt.eq_2 _ _ _ _ _ (by intro b hb; simp at hb), h]

/-- A key missing from the own args recurses into an element base. -/
theorem Element.getIt_base (nm ty : Option String) (args : Args)
    (b : Element) (k : String) (h : args.lookup k = none) :
    Element.getIt (.mk nm ty args (some (.elem b))) k = b.getIt k := by
  rw [Element.getIt.eq_1, h]
  simp [baseTruthy]

/-- `get` with a default returns a found value. -/
theorem Element.getD_of_getIt (e : Element) (k : String) (v d : Val)
    (h : e.getIt k = .ok v) : e.getD k d = .ok v := by
  unfold Element.getD
  rw [h]

/-- Appending a new key makes it visible to lookup. -/
theorem Args.lookup_append_new (a : Args) (k : String) (v : Val)
    (h : a.lookup k = none) : Args.lookup (a ++ [(k, v)]) k = some v := by
  induction a with
  | nil => simp [Args.lookup, strieq_self]
  | cons p rest ih =>
    by_cases hk : strieq p.1 k = true
    · simp [Args.lookup, hk] at h
    · simp only [Bool.not_eq_true] at hk
      simp only [Args.lookup, hk, Bool.false_eq_true, if_false] at h
      simp only [List.cons_append, Args.lookup, hk, Bool.false_eq_true,
        if_false]
      exact ih h

mutual

/-- Python `==` on our values is reflexive. -/
theorem pyEq_refl : ∀ (v : Val), pyEq v v = true
  | .num q => by simp [pyEq]
  | .str s => by simp [pyEq]
  | .vlist xs => by simpa [pyEq] using pyEqList_refl xs
  | .pynone => rfl
  | .varray xs a => by simpa [pyEq] using pyEqList_refl xs
  | .ident n a => by simp [pyEq]
  | .composed e a => by simp [pyEq]

/-- Pointwise Python `==` is reflexive. -/
theorem pyEqList_refl : ∀ (xs : List Val), pyEq.pyEqList xs xs = true
  | [] => rfl
  | x :: xs => by
      simp only [pyEq.pyEqList, Bool.and_eq_true]
      exact ⟨pyEq_refl x, pyEqList_refl xs⟩

end

/-- Running the inner consumption loop of `detect`: with no `endsequence`
in `body` and `e` of type `endsequence`, the pending state consumes
`body ++ e :: r`, emits the collected sequence and continues on `r`. -/
theorem detectGo_pending_run (byn : List Node) (inl : Bool) (h0 : Element)
    (e : Node) (r : List Node)
    (he : nodeTypeIs e "endsequence" = true) :
    ∀ (body : List Node) (acc : List Node),
      (∀ x ∈ body, nodeTypeIs x "endsequence" = false) →
      detectGo byn inl (some (h0, acc)) (body ++ e :: r) =
        (do
          let tl ← detectGo byn inl none r
          Except.ok (DocNode.seq
            ⟨Node.elem h0 :: (acc.reverse ++ (body ++ [e])), []⟩ :: tl)) := by
  intro body
  induction body with
  | nil =>
    intro acc _
    rw [List.nil_append, detectGo.eq_def]
    simp [he]
  | cons n body' ih =>
    intro acc hb
    have hn : nodeTypeIs n "endsequence" = false := hb n (by simp)
    rw [List.cons_append, detectGo.eq_def]
    simp only [hn, Bool.false_eq_true, if_false]
    rw [ih (n :: acc) (fun x hx => hb x (by simp [hx]))]
    simp

/-- Success of a bind whose continuation always succeeds. -/
theorem exOk_bind_map {α β : Type} (m : Except PyErr α) (g : α → β) :
    exOk (bind m (fun a => Except.ok (g a))) = exOk m := by
  cases m <;> rfl

/-- Success of two binds whose final continuation always succeeds. -/
theorem exOk_bind_bind_map {α β γ : Type} (m : Except PyErr α)
    (m' : Except PyErr β) (g : α → β → γ) :
    exOk (bind m (fun a => bind m' (fun b => Except.ok (g a b)))) =
      (exOk m && exOk m') := by
  cases m <;> cases m' <;> rfl

/-- Resolving the names of a LINE statement succeeds iff every referenced
name is in the `by_name` table. -/
theorem mapM_lineEntry_isOk (byn : List Node) (inl : Bool) :
    ∀ elems : List String,
      exOk (elems.mapM (lineEntry byn inl)) = true ↔
        ∀ x ∈ elems, (byNameLookup byn x).isSome = true := by
  intro elems
  induction elems with
  | nil =>
    constructor
    · intro _ x hx; cases hx
    · intro _; rfl
  | cons x xs ih =>
    rw [List.mapM_cons]
    cases hb : byNameLookup byn x with
    | none =>
      constructor
      · intro h
        simp [lineEntry, hb, bind, Except.bind, exOk] at h
      · intro h
        have := h x (by simp)
        simp [hb] at this
    | some nd =>
      have hentry : ∃ v, lineEntry byn inl x = .ok v := by
        unfold lineEntry
        rw [hb]
        cases inl <;> exact ⟨_, rfl⟩
      obtain ⟨v, hv⟩ := hentry
      rw [hv]
      simp only [bind, Except.bind]
      constructor
      · intro h
        intro y hy
        rcases List.mem_cons.mp hy with rfl | hy'
        · simp [hb]
        · refine (ih.mp ?_) y hy'
          cases hxs : xs.mapM (lineEntry byn inl) with
          | error err => rw [hxs] at h; simp [exOk] at h
          | ok body => rfl
      · intro h
        have hxs := ih.mpr (fun y hy => h y (by simp [hy]))
        cases hmm : xs.mapM (lineEntry byn inl) with
        | error err => rw [hmm] at hxs; simp [exOk] at hxs
        | ok body => rfl

/-- Success characterization of the pending (inner-loop) state: the rest of
the input splits at the first `endsequence`, and scanning continues on the
remainder. -/
theorem detectGo_pending_isOk (byn : List Node) (inl : Bool) (h0 : Element) :
    ∀ (l : List Node) (acc : List Node),
      exOk (detectGo byn inl (some (h0, acc)) l) = true ↔
        ∃ g e r, l = g ++ e :: r ∧
          (∀ x ∈ g, nodeTypeIs x "endsequence" = false) ∧
          nodeTypeIs e "endsequence" = true ∧
          exOk (detectGo byn inl none r) = true := by
  intro l
  induction l with
  | nil =>
    intro acc
    constructor
    · intro h
      rw [detectGo.eq_def] at h
      simp [exOk] at h
    · rintro ⟨g, e, r, habs, -, -, -⟩
      cases g <;> simp at habs
  | cons n rest ih =>
    intro acc
    by_cases hend : nodeTypeIs n "endsequence" = true
    · rw [detectGo.eq_def]
      simp only [hend, if_true]
      rw [exOk_bind_map]
      constructor
      · intro h
        exact ⟨[], n, rest, by simp, by simp, hend, h⟩
      · rintro ⟨g, e, r, heq, hg, he, hr⟩
        cases g with
        | nil =>
          simp only [List.nil_append, List.cons.injEq] at heq
          obtain ⟨rfl, rfl⟩ := heq
          exact hr
        | cons g0 gs =>
          simp only [List.cons_append, List.cons.injEq] at heq
          obtain ⟨rfl, hrest⟩ := heq
          have := hg n (by simp)
          simp [this] at hend
    · have hendf : nodeTypeIs n "endsequence" = false := by
        simpa using hend
      rw [detectGo.eq_def]
      simp only [hendf, Bool.false_eq_true, if_false]
      rw [ih (n :: acc)]
      constructor
      · rintro ⟨g, e, r, heq, hg, he, hr⟩
        refine ⟨n :: g, e, r, by simp [heq], ?_, he, hr⟩
        intro x hx
        rcases List.mem_cons.mp hx with rfl | hx'
        · exact hendf
        · exact hg x hx'
      · rintro ⟨g, e, r, heq, hg, he, hr⟩
        cases g with
        | nil =>
          simp only [List.nil_append, List.cons.injEq] at heq
          obtain ⟨rfl, rfl⟩ := heq
          simp [he] at hendf
        | cons g0 gs =>
          simp only [List.cons_append, List.cons.injEq] at heq
          obtain ⟨rfl, hrest⟩ := heq
          exact ⟨gs, e, r, hrest, fun x hx => hg x (by simp [hx]), he, hr⟩

/-- Success characterization of the scanning loop from the top-level state:
`detect` succeeds exactly on `WellScanned` inputs. -/
theorem detectGo_none_isOk (byn : List Node) (inl : Bool) :
    ∀ (l : List Node),
      exOk (detectGo byn inl none l) = true ↔
        WellScanned (fun nm => (byNameLookup byn nm).isSome = true) l := by
  suffices H : ∀ (k : ℕ) (l : List Node), l.length ≤ k →
      (exOk (detectGo byn inl none l) = true ↔
        WellScanned (fun nm => (byNameLookup byn nm).isSome = true) l) by
    exact fun l => H l.length l le_rfl
  intro k
  induction k with
  | zero =>
    intro l hl
    have hnil : l = [] := List.eq_nil_of_length_eq_zero (Nat.le_zero.mp hl)
    subst hnil
    exact ⟨fun _ => .nil, fun _ => rfl⟩
  | succ k ih =>
    intro l hl
    cases l with
    | nil => exact ⟨fun _ => .nil, fun _ => rfl⟩
    | cons n rest =>
      have hrest : rest.length ≤ k := by
        simp only [List.length_cons] at hl
        omega
      by_cases hseq : nodeTypeIs n "sequence" = true
      · obtain ⟨e0, rfl⟩ : ∃ e0, n = Node.elem e0 := by
          cases n with
          | elem e0 => exact ⟨e0, rfl⟩
          | text s =>
            exact absurd hseq (by simp only [nodeTypeIs, Node.ntype]; decide)
          | line a b =>
            exact absurd hseq (by simp only [nodeTypeIs, Node.ntype]; decide)
        rw [detectGo.eq_def]
        simp only [hseq, if_true]
        rw [detectGo_pending_isOk]
        constructor
        · rintro ⟨g, e, r, heq, hg, he, hr⟩
          have hrlen : r.length ≤ k := by
            subst heq
            simp only [List.length_append, List.length_cons] at hrest
            omega
          have hwr := (ih r hrlen).mp hr
          rw [heq]
          exact WellScanned.seq hseq hg he hwr
        · intro hws
          cases hws with
          | seq h1 h2 h3 h4 =>
            refine ⟨_, _, _, rfl, h2, h3, ?_⟩
            refine (ih _ ?_).mpr h4
            simp only [List.length_append, List.length_cons] at hrest
            omega
          | other h1 h2 h3 => simp [h1] at hseq
      · by_cases hline : nodeTypeIs n "line" = true
        · cases n with
          | elem e0 =>
            rw [detectGo.eq_def]
            have hseqf : nodeTypeIs (Node.elem e0) "sequence" = false := by
              simpa using hseq
            simp only [hseqf, Bool.false_eq_true, if_false, hline, if_true]
            constructor
            · intro h; simp [exOk] at h
            · intro hws
              cases hws with
              | seq h1 h2 h3 h4 => exact absurd h1 hseq
              | other h1 h2 h3 => simp [h2] at hline
          | text s =>
            exact absurd hline (by simp only [nodeTypeIs, Node.ntype]; decide)
          | line nm elems =>
            rw [detectGo.eq_def]
            have hseqf : nodeTypeIs (Node.line nm elems) "sequence" = false := by
              simpa using hseq
            simp only [hseqf, Bool.false_eq_true, if_false, hline, if_true]
            rw [exOk_bind_bind_map, Bool.and_eq_true, mapM_lineEntry_isOk,
              ih rest hrest]
            constructor
            · rintro ⟨hnames, hws⟩
              exact WellScanned.line
                (by simp only [nodeTypeIs, Node.ntype]; decide) hnames hws
            · intro hws
              cases hws with
              | seq h1 h2 h3 h4 => exact absurd h1 hseq
              | line h1 h2 h3 => exact ⟨h2, h3⟩
              | other h1 h2 h3 =>
                exact absurd h2 (by simp only [nodeTypeIs, Node.ntype]; decide)
        · have hseqf : nodeTypeIs n "sequence" = false := by simpa using hseq
          have hlinef : nodeTypeIs n "line" = false := by simpa using hline
          rw [detectGo.eq_def]
          simp only [hseqf, hlinef, Bool.false_eq_true, if_false]
          rw [exOk_bind_map, ih rest hrest]
          constructor
          · intro hws
            exact WellScanned.other hseqf hlinef hws
          · intro hws
            cases hws with
            | seq h1 h2 h3 h4 => exact absurd h1 hseq
            | line h1 h2 h3 =>
              exact absurd hlinef
                (by simp only [nodeTypeIs, Node.ntype]; decide)
            | other h1 h2 h3 => exact h3

/-- **C4**.  `Sequence.detect` fails exactly when a `sequence` element is
not closed by an `endsequence` before end of input, or a LINE statement
references a name missing from the input's `by_name` table (in the code
these surface as `AssertionError` and `KeyError`; the spec names both
`SequenceStructureError`).  The two closed conjuncts exhibit each failure
with its error value. -/
theorem C4_detect_failure_characterization :
    (∀ (ns : List Node) (inl : Bool),
      exOk (Sequence.detect ns inl) = true ↔
        WellScanned (fun nm => (byNameLookup ns nm).isSome = true) ns) ∧
    Sequence.detect untermInput false = .error .assertError ∧
    Sequence.detect lineUndefInput false = .error (.keyError "B") := by
  refine ⟨?_, rfl, rfl⟩
  intro ns inl
  exact detectGo_none_isOk ns inl ns

/-- **C4 witness**: a well-formed two-element sequence input is accepted,
via the characterization applied to `WellScanned` evidence. -/
theorem C4_detect_failure_characterization_witness :
    exOk (Sequence.detect seqPairInput false) = true :=
  (C4_detect_failure_characterization.1 seqPairInput false).mpr
    (@WellScanned.seq _ (Node.elem headNoRefer) [] [] (Node.elem endSeqElem)
      (by decide) (by intro x hx; cases hx) (by decide) .nil)

/-- The frame relation is reflexive. -/
theorem Preserves.rfl' (h : Heap) : Preserves h h :=
  ⟨le_rfl, fun _ _ => rfl⟩

/-- The frame relation is transitive. -/
theorem Preserves.trans' {h0 h1 h2 : Heap} (p : Preserves h0 h1)
    (q : Preserves h1 h2) : Preserves h0 h2 :=
  ⟨le_trans p.1 q.1,
   fun b hb => (q.2 b (lt_of_lt_of_le hb p.1)).trans (p.2 b hb)⟩

/-- Allocation preserves all existing addresses. -/
theorem preserves_append (h : Heap) (o : HObj) : Preserves h (h ++ [o]) :=
  ⟨by simp, fun b hb => List.getElem?_append_left hb⟩

/-- Writing at an address at or beyond the base heap's size preserves the
base heap. -/
theorem preserves_set_ge {h0 h : Heap} (hp : Preserves h0 h) (c : Nat)
    (hc : h0.length ≤ c) (o : HObj) : Preserves h0 (h.set c o) := by
  refine ⟨?_, ?_⟩
  · rw [List.length_set]; exact hp.1
  · intro b hb
    rw [List.getElem?_set_ne (by omega)]
    exact hp.2 b hb

/-- `elem[k] = v` at a fresh address preserves the base heap. -/
theorem preserves_hSetIt {h0 h : Heap} (hp : Preserves h0 h) (c : Nat)
    (hc : h0.length ≤ c) (k : String) (v : Val) :
    Preserves h0 (hSetIt h c k v) := by
  unfold hSetIt
  cases h[c]? with
  | none => exact hp
  | some o => exact preserves_set_ge hp c hc _

/-- `elem.name = nm` at a fresh address preserves the base heap. -/
theorem preserves_hSetName {h0 h : Heap} (hp : Preserves h0 h) (c : Nat)
    (hc : h0.length ≤ c) (nm : Option String) :
    Preserves h0 (hSetName h c nm) := by
  unfold hSetName
  cases h[c]? with
  | none => exact hp
  | some o => exact preserves_set_ge hp c hc _

/-- `copy` allocates at the end of the heap. -/
theorem hCopy_spec {h : Heap} {a : Nat} {h' : Heap} {c : Nat}
    (hc : hCopy h a = .ok (h', c)) : Preserves h h' ∧ c = h.length := by
  unfold hCopy at hc
  cases hh : h[a]? with
  | none => rw [hh] at hc; simp at hc
  | some o =>
    rw [hh] at hc
    simp only [Heap.alloc, Except.ok.injEq, Prod.mk.injEq] at hc
    obtain ⟨rfl, rfl⟩ := hc
    exact ⟨preserves_append h o, rfl⟩

/-- `del elem[k]` at a fresh address preserves the base heap. -/
theorem hDelIt_preserves {h0 h h' : Heap} {c : Nat} (hp : Preserves h0 h)
    (hc : h0.length ≤ c) {k : String} (hd : hDelIt h c k = .ok h') :
    Preserves h0 h' := by
  unfold hDelIt at hd
  cases hh : h[c]? with
  | none => rw [hh] at hd; simp at hd
  | some o =>
    rw [hh] at hd
    simp only [] at hd
    cases hk : o.args.lookup k with
    | none => rw [hk] at hd; simp at hd
    | some v =>
      rw [hk] at hd
      simp only [Except.ok.injEq] at hd
      rw [← hd]
      exact preserves_set_ge hp c hc _

/-- `elem.pop(k)` writing only at a fresh address preserves the base heap. -/
theorem hPop_preserves {h0 h h' : Heap} {a : Nat} (hp : Preserves h0 h)
    (ha : h0.length ≤ a) {k : String} {dflt : Option Val} {v : Val}
    (hd : hPop h a k dflt = .ok (v, h')) : Preserves h0 h' := by
  unfold hPop at hd
  cases hh : h[a]? with
  | none => rw [hh] at hd; simp at hd
  | some o =>
    rw [hh] at hd
    simp only [] at hd
    cases hk : o.args.lookup k with
    | some w =>
      rw [hk] at hd
      simp only [Except.ok.injEq, Prod.mk.injEq] at hd
      obtain ⟨-, rfl⟩ := hd
      exact preserves_set_ge hp a ha _
    | none =>
      rw [hk] at hd
      cases hbv : (match o.base with
          | some b => hGetIt h h.length b k
          | none => Except.error PyErr.typeError) with
      | ok bv =>
        rw [hbv] at hd
        simp only [Except.ok.injEq, Prod.mk.injEq] at hd
        obtain ⟨-, rfl⟩ := hd
        exact hp
      | error berr =>
        rw [hbv] at hd
        cases berr with
        | keyError kk =>
          cases dflt with
          | none => simp at hd
          | some d =>
            simp only [Except.ok.injEq, Prod.mk.injEq] at hd
            obtain ⟨-, rfl⟩ := hd
            exact hp
        | typeError =>
          cases dflt with
          | none => simp at hd
          | some d =>
            simp only [Except.ok.injEq, Prod.mk.injEq] at hd
            obtain ⟨-, rfl⟩ := hd
            exact hp
        | attrError => simp at hd
        | valueError m => simp at hd
        | assertError => simp at hd
        | indexError => simp at hd

/-- Inversion of a successful `Except` bind. -/
theorem except_bind_ok {α β : Type} {m : Except PyErr α}
    {k : α → Except PyErr β} {r : β} (h : Except.bind m k = .ok r) :
    ∃ v, m = .ok v ∧ k v = .ok r := by
  cases m with
  | error e => simp [Except.bind] at h
  | ok v => exact ⟨v, rfl, h⟩

/-- `rescale_thick` on the heap never mutates pre-existing objects. -/
theorem hRescaleThick_preserves {h h' : Heap} {a c : Nat} {ratio : ℚ}
    (hr : hRescaleThick h a ratio = .ok (h', c)) : Preserves h h' := by
  unfold hRescaleThick at hr
  by_cases h1 : ratio = 1
  · rw [if_pos h1] at hr
    simp only [Except.ok.injEq, Prod.mk.injEq] at hr
    obtain ⟨rfl, -⟩ := hr
    exact Preserves.rfl' h
  · rw [if_neg h1] at hr
    simp only [bind, Except.bind] at hr
    cases hcp : hCopy h a with
    | error err => rw [hcp] at hr; simp at hr
    | ok pr =>
      obtain ⟨h1', scaled⟩ := pr
      rw [hcp] at hr
      simp only [] at hr
      obtain ⟨hp1, hsc⟩ := hCopy_spec hcp
      cases hlv : hGetIt h1' h1'.length a "L" with
      | error err => rw [hlv] at hr; simp at hr
      | ok lv =>
        rw [hlv] at hr
        simp only [] at hr
        cases hmul : pyArith lv "*" (Val.num ratio) with
        | error err => rw [hmul] at hr; simp at hr
        | ok lv' =>
          rw [hmul] at hr
          simp only [] at hr
          have hp2 : Preserves h (hSetIt h1' scaled "L" lv') :=
            preserves_hSetIt hp1 scaled (by omega) _ _
          cases hbt : hBaseType (hSetIt h1' scaled "L" lv')
              (hSetIt h1' scaled "L" lv').length scaled with
          | error err => rw [hbt] at hr; simp at hr
          | ok bt =>
            rw [hbt] at hr
            simp only [] at hr
            by_cases hsb : ostrieq bt (some "sbend") = true
            · rw [if_pos hsb] at hr
              cases hav : hGetIt (hSetIt h1' scaled "L" lv')
                  (hSetIt h1' scaled "L" lv').length scaled "angle" with
              | error err => rw [hav] at hr; simp at hr
              | ok av =>
                rw [hav] at hr
                simp only [] at hr
                cases hmul2 : pyArith av "*" (Val.num ratio) with
                | error err => rw [hmul2] at hr; simp at hr
                | ok av' =>
                  rw [hmul2] at hr
                  simp only [Except.ok.injEq, Prod.mk.injEq] at hr
                  obtain ⟨rfl, -⟩ := hr
                  exact preserves_hSetIt hp2 scaled (by omega) _ _
            · rw [if_neg hsb] at hr
              simp only [Except.ok.injEq, Prod.mk.injEq] at hr
              obtain ⟨rfl, -⟩ := hr
              exact hp2

/-- `rescale_makethin` on the heap never mutates pre-existing objects. -/
theorem hRescaleMakethin_preserves {h h' : Heap} {a c : Nat} {ratio : ℚ}
    (hr : hRescaleMakethin h a ratio = .ok (h', c)) : Preserves h h' := by
  unfold hRescaleMakethin at hr
  obtain ⟨bt, hbt, hr⟩ := except_bind_ok hr
  simp only [] at hr
  by_cases hskip : (!(ostrieq bt (some "sbend") || ostrieq bt (some "quadrupole") ||
       ostrieq bt (some "solenoid"))) = true
  · rw [if_pos hskip] at hr
    simp only [Except.ok.injEq, Prod.mk.injEq] at hr
    obtain ⟨rfl, -⟩ := hr
    exact Preserves.rfl' h
  · rw [if_neg hskip] at hr
    by_cases hsol : ostrieq bt (some "solenoid") = true
    · rw [if_pos hsol] at hr
      obtain ⟨pr, hcp, hr⟩ := except_bind_ok hr
      obtain ⟨h1, e⟩ := pr
      obtain ⟨hp1, he⟩ := hCopy_spec hcp
      subst he
      obtain ⟨ks, hks, hr⟩ := except_bind_ok hr
      obtain ⟨l, hl, hr⟩ := except_bind_ok hr
      obtain ⟨v1, hv1, hr⟩ := except_bind_ok hr
      obtain ⟨v2, hv2, hr⟩ := except_bind_ok hr
      obtain ⟨l2, hl2, hr⟩ := except_bind_ok hr
      obtain ⟨v3, hv3, hr⟩ := except_bind_ok hr
      simp only [Except.ok.injEq, Prod.mk.injEq] at hr
      obtain ⟨rfl, -⟩ := hr
      have p2 := preserves_hSetIt hp1 h.length le_rfl "ksi" v2
      have p3 := preserves_hSetIt p2 h.length le_rfl "lrad" v3
      exact preserves_hSetIt p3 h.length le_rfl "L" (Val.num 0)
    · rw [if_neg hsol] at hr
      obtain ⟨allA, hall, hr⟩ := except_bind_ok hr
      simp only [Heap.alloc] at hr
      obtain ⟨h2, hinner, hr⟩ := except_bind_ok hr
      have hp1 : Preserves h (h ++ [⟨hName h a, some "multipole", allA, none⟩]) :=
        preserves_append h _
      have hp2 : Preserves h h2 := by
        by_cases hsb : ostrieq bt (some "sbend") = true
        · rw [if_pos hsb] at hinner
          obtain ⟨pr2, hpop1, hinner⟩ := except_bind_ok hinner
          obtain ⟨angle, ha1⟩ := pr2
          obtain ⟨v, hv, hinner⟩ := except_bind_ok hinner
          obtain ⟨pr3, hpop2, hinner⟩ := except_bind_ok hinner
          obtain ⟨w, ha3⟩ := pr3
          simp only [pure, Except.pure, Except.ok.injEq] at hinner
          subst hinner
          have q1 := hPop_preserves hp1 le_rfl hpop1
          have q2 := preserves_hSetIt q1 h.length le_rfl "KNL" (Val.vlist [v])
          exact hPop_preserves q2 le_rfl hpop2
        · rw [if_neg hsb] at hinner
          obtain ⟨hk1, hck1, hinner⟩ := except_bind_ok hinner
          obtain ⟨hb, hbranch, hinner⟩ := except_bind_ok hinner
          have hpb : Preserves h hb := by
            by_cases hk : hk1 = true
            · rw [if_pos hk] at hbranch
              obtain ⟨k1, hg1, hbranch⟩ := except_bind_ok hbranch
              obtain ⟨l, hg2, hbranch⟩ := except_bind_ok hbranch
              obtain ⟨v1, hg3, hbranch⟩ := except_bind_ok hbranch
              obtain ⟨v2, hg4, hbranch⟩ := except_bind_ok hbranch
              exact hDelIt_preserves
                (preserves_hSetIt hp1 h.length le_rfl _ _) le_rfl hbranch
            · rw [if_neg hk] at hbranch
              simp only [pure, Except.pure, Except.ok.injEq] at hbranch
              subst hbranch
              exact hp1
          obtain ⟨hk1s, hck1s, hinner⟩ := except_bind_ok hinner
          by_cases hks : hk1s = true
          · rw [if_pos hks] at hinner
            obtain ⟨k1s, hg1, hinner⟩ := except_bind_ok hinner
            obtain ⟨l, hg2, hinner⟩ := except_bind_ok hinner
            obtain ⟨v1, hg3, hinner⟩ := except_bind_ok hinner
            obtain ⟨v2, hg4, hinner⟩ := except_bind_ok hinner
            exact hDelIt_preserves
              (preserves_hSetIt hpb h.length le_rfl _ _) le_rfl hinner
          · rw [if_neg hks] at hinner
            simp only [pure, Except.pure, Except.ok.injEq] at hinner
            subst hinner
            exact hpb
      obtain ⟨hL, hcl, hr⟩ := except_bind_ok hr
      by_cases hLb : hL = true
      · rw [if_pos hLb] at hr
        obtain ⟨pr4, hpop, hr⟩ := except_bind_ok hr
        obtain ⟨lv, h3⟩ := pr4
        obtain ⟨v, hv, hr⟩ := except_bind_ok hr
        simp only [Except.ok.injEq, Prod.mk.injEq] at hr
        obtain ⟨rfl, -⟩ := hr
        exact preserves_hSetIt (hPop_preserves hp2 le_rfl hpop) h.length le_rfl _ _
      · rw [if_neg hLb] at hr
        simp only [Except.ok.injEq, Prod.mk.injEq] at hr
        obtain ⟨rfl, -⟩ := hr
        exact hp2

/-- A heap-threading fold whose every step preserves the incoming heap
preserves the initial heap. -/
theorem foldlM_heap_preserves {σ : Type}
    (f : Heap × σ → ℕ → Except PyErr (Heap × σ))
    (hf : ∀ st i r, f st i = .ok r → Preserves st.1 r.1) :
    ∀ (l : List ℕ) (st r : Heap × σ),
      List.foldlM f st l = .ok r → Preserves st.1 r.1 := by
  intro l
  induction l with
  | nil =>
    intro st r hr
    simp only [List.foldlM_nil, pure, Except.pure, Except.ok.injEq] at hr
    subst hr
    exact Preserves.rfl' st.1
  | cons x xs ih =>
    intro st r hr
    obtain ⟨st', hstep, hr⟩ := except_bind_ok hr
    exact Preserves.trans' (hf st x st' hstep) (ih st' r hr)

/-- `uniform_slice_distribution` on the heap never mutates pre-existing
objects. -/
theorem hUniformDist_preserves {h h' : Heap} {outs : List HNode} {a : Nat}
    {offset : Val} {refer : ℚ} {slice_num : Int} {slice_len : ℚ}
    (hr : hUniformDist h a offset refer slice_num slice_len = .ok (h', outs)) :
    Preserves h h' := by
  unfold hUniformDist at hr
  refine foldlM_heap_preserves _ ?_ (List.range slice_num.toNat) (h, []) (h', outs) hr
  intro st i r hs
  obtain ⟨hc, outs0⟩ := st
  obtain ⟨pr, hcp, hs⟩ := except_bind_ok hs
  obtain ⟨h2, slc⟩ := pr
  obtain ⟨hp1, he⟩ := hCopy_spec hcp
  subst he
  obtain ⟨atv, hat, hs⟩ := except_bind_ok hs
  simp only [pure, Except.pure, Except.ok.injEq] at hs
  subst hs
  simp only []
  have q1 := preserves_hSetIt hp1 hc.length le_rfl "at" atv
  split
  · exact preserves_hSetName q1 hc.length le_rfl _
  · exact q1

/-- `uniform_slice_loop` on the heap never mutates pre-existing objects. -/
theorem hLoopDist_preserves {h h' : Heap} {outs : List HNode} {a : Nat}
    {offset : Val} {refer : ℚ} {slice_num : Int} {slice_len : ℚ}
    (hr : hLoopDist h a offset refer slice_num slice_len = .ok (h', outs)) :
    Preserves h h' := by
  unfold hLoopDist at hr
  obtain ⟨pr, hcp, hr⟩ := except_bind_ok hr
  obtain ⟨h1, slc⟩ := pr
  obtain ⟨hp1, he⟩ := hCopy_spec hcp
  subst he
  obtain ⟨s1, hs1, hr⟩ := except_bind_ok hr
  obtain ⟨s2, hs2, hr⟩ := except_bind_ok hr
  obtain ⟨atv, hat, hr⟩ := except_bind_ok hr
  simp only [Except.ok.injEq, Prod.mk.injEq] at hr
  obtain ⟨rfl, -⟩ := hr
  exact preserves_hSetIt (preserves_hSetName hp1 h.length le_rfl none)
    h.length le_rfl _ _

/-- Whichever rescaling policy `__init__` picked, a successful run preserves
pre-existing objects. -/
theorem hRescale_either_preserves {b : Bool} {h h' : Heap} {a c : Nat}
    {ratio : ℚ}
    (hr : (if b = true then hRescaleMakethin else hRescaleThick) h a ratio =
      .ok (h', c)) : Preserves h h' := by
  cases b
  · rw [if_neg (by simp)] at hr
    exact hRescaleThick_preserves hr
  · rw [if_pos rfl] at hr
    exact hRescaleMakethin_preserves hr

/-- A successful `elem.get` with the heap size as fuel proves the address is
live. -/
theorem hGetD_ok_valid {h : Heap} {a : Nat} {k : String} {d v : Val}
    (hg : hGetD h h.length a k d = .ok v) : a < h.length := by
  by_contra hlt
  push_neg at hlt
  rcases hn : h.length with _ | n
  · rw [hn] at hg
    simp [hGetD, hGetIt] at hg
  · rw [hn] at hg
    have ha : h[a]? = none := List.getElem?_eq_none (by omega)
    simp [hGetD, hGetIt, ha] at hg

/-- **C9** (confirmed).  `ElementTransform.slice` never mutates the input
element.  In the heap model, for every selector accepted by
`ElementTransform.__init__` and every successful `slice(elem, offset,
refer)` run, every address that existed before the call — in particular the
input element's, carrying its name, type, argument map and base pointer —
holds exactly the same object afterwards: all rescaling, template making and
slice distribution write only into fresh clones. -/
theorem C9_slice_never_mutates_input {sel : Selector}
    {h h' : Heap} {a : Nat} {offset : Val} {refer : ℚ}
    {templ : List Nat} {outs : List HNode} {newOff : Val}
    (hs : (do
        let r ← hInit sel
        hSlice r h a offset refer) = .ok (h', templ, outs, newOff)) :
    (∀ b, b < h.length → h'[b]? = h[b]?) ∧ h'[a]? = h[a]? := by
  obtain ⟨r, hi, hs⟩ := except_bind_ok hs
  have hfacts :
      (∀ hh aa ratio hh' cc, r.rescale hh aa ratio = Except.ok (hh', cc) →
        Preserves hh hh') ∧
      (∀ hh aa hh' ee, r.stripelem hh aa = Except.ok (hh', ee) →
        Preserves hh hh') ∧
      (∀ hh aa off rf sn sl hh' oo,
        r.distribution hh aa off rf sn sl = Except.ok (hh', oo) →
        Preserves hh hh') := by
    unfold hInit at hi
    simp only [] at hi
    by_cases htp : (sel.template.getD false) = true
    · rw [if_pos htp] at hi
      simp only [] at hi
      by_cases hst : (sel.style.getD "uniform" == "uniform") = true
      · rw [if_pos hst] at hi
        obtain ⟨d, hd, hi⟩ := except_bind_ok hi
        simp only [pure, Except.pure, Except.ok.injEq] at hd
        subst hd
        simp only [Except.ok.injEq] at hi
        subst hi
        refine ⟨?_, ?_, ?_⟩
        · intro hh aa ratio hh' cc hres
          exact hRescale_either_preserves hres
        · intro hh aa hh' ee hstrip
          simp only [Heap.alloc, Except.ok.injEq, Prod.mk.injEq] at hstrip
          obtain ⟨heq, -⟩ := hstrip
          exact heq ▸ preserves_append hh _
        · intro hh aa off rf sn sl hh' oo hdist
          exact hUniformDist_preserves hdist
      · rw [if_neg hst] at hi
        by_cases hlp : (sel.style.getD "uniform" == "loop") = true
        · rw [if_pos hlp] at hi
          obtain ⟨d, hd, hi⟩ := except_bind_ok hi
          simp only [pure, Except.pure, Except.ok.injEq] at hd
          subst hd
          simp only [Except.ok.injEq] at hi
          subst hi
          refine ⟨?_, ?_, ?_⟩
          · intro hh aa ratio hh' cc hres
            exact hRescale_either_preserves hres
          · intro hh aa hh' ee hstrip
            simp only [Heap.alloc, Except.ok.injEq, Prod.mk.injEq] at hstrip
            obtain ⟨heq, -⟩ := hstrip
            exact heq ▸ preserves_append hh _
          · intro hh aa off rf sn sl hh' oo hdist
            exact hLoopDist_preserves hdist
        · rw [if_neg hlp] at hi
          obtain ⟨d, hd, hi⟩ := except_bind_ok hi
          simp at hd
    · rw [if_neg htp] at hi
      simp only [] at hi
      by_cases hst : (sel.style.getD "uniform" == "uniform") = true
      · rw [if_pos hst] at hi
        obtain ⟨d, hd, hi⟩ := except_bind_ok hi
        simp only [pure, Except.pure, Except.ok.injEq] at hd
        subst hd
        simp only [Except.ok.injEq] at hi
        subst hi
        refine ⟨?_, ?_, ?_⟩
        · intro hh aa ratio hh' cc hres
          exact hRescale_either_preserves hres
        · intro hh aa hh' ee hstrip
          simp only [Except.ok.injEq, Prod.mk.injEq] at hstrip
          obtain ⟨heq, -⟩ := hstrip
          exact heq ▸ Preserves.rfl' hh
        · intro hh aa off rf sn sl hh' oo hdist
          exact hUniformDist_preserves hdist
      · rw [if_neg hst] at hi
        by_cases hlp : (sel.style.getD "uniform" == "loop") = true
        · rw [if_pos hlp] at hi
          obtain ⟨d, hd, hi⟩ := except_bind_ok hi
          simp only [pure, Except.pure, Except.ok.injEq] at hd
          subst hd
          simp only [Except.ok.injEq] at hi
          subst hi
          refine ⟨?_, ?_, ?_⟩
          · intro hh aa ratio hh' cc hres
            exact hRescale_either_preserves hres
          · intro hh aa hh' ee hstrip
            simp only [Except.ok.injEq, Prod.mk.injEq] at hstrip
            obtain ⟨heq, -⟩ := hstrip
            exact heq ▸ Preserves.rfl' hh
          · intro hh aa off rf sn sl hh' oo hdist
            exact hLoopDist_preserves hdist
        · rw [if_neg hlp] at hi
          obtain ⟨d, hd, hi⟩ := except_bind_ok hi
          simp at hd
  unfold hSlice at hs
  obtain ⟨elem_len, hel, hs⟩ := except_bind_ok hs
  have haval : a < h.length := hGetD_ok_valid hel
  obtain ⟨off1, hoff, hs⟩ := except_bind_ok hs
  obtain ⟨n0, hn0, hs⟩ := except_bind_ok hs
  obtain ⟨slice_len, hsl, hs⟩ := except_bind_ok hs
  obtain ⟨pr1, hres, hs⟩ := except_bind_ok hs
  obtain ⟨h1, scaled⟩ := pr1
  obtain ⟨pr2, hstrip, hs⟩ := except_bind_ok hs
  obtain ⟨h2, elem2⟩ := pr2
  obtain ⟨pr3, hdist, hs⟩ := except_bind_ok hs
  obtain ⟨h3, elems⟩ := pr3
  obtain ⟨newv, hnv, hs⟩ := except_bind_ok hs
  simp only [Except.ok.injEq, Prod.mk.injEq] at hs
  obtain ⟨rfl, -⟩ := hs
  have hp1 : Preserves h h1 := hfacts.1 _ _ _ _ _ hres
  have hp2 : Preserves h1 h2 := hfacts.2.1 _ _ _ _ hstrip
  have hp3 : Preserves h2 h3 := hfacts.2.2 _ _ _ _ _ _ _ _ hdist
  have hp : Preserves h h3 := Preserves.trans' hp1 (Preserves.trans' hp2 hp3)
  exact ⟨fun b hb => hp.2 b hb, hp.2 a haval⟩

/-- `C9` at a concrete run: slicing a drift of length 2 with the
all-defaults selector succeeds and leaves the original object untouched. -/
theorem C9_slice_never_mutates_input_witness :
    (∀ b, b < hW.length → hWpost[b]? = hW[b]?) ∧ hWpost[0]? = hW[0]? :=
  C9_slice_never_mutates_input (show (do
      let r ← hInit {}
      hSlice r hW 0 (Val.num 0) 0) =
    Except.ok (hWpost, ([], [HNode.addr 1], Val.num 2)) by
    norm_num +decide [hInit, hSlice, hW, hWpost, hGetD, hGetIt, hCopy,
      Heap.alloc, hName, hSetIt, hSetName, hUniformDist, hRescaleThick,
      Args.lookup, Args.set, strieq, pyLower, pyLowerChar, truthyStr,
      pyArith, exclusive, List.foldlM, List.range_succ, List.range_zero,
      Int.toNat_one, bind, Except.bind, pure, Except.pure])

/-- **C1** (code bug).  The spec says that a selector specifying both `name`
and `type`, or both `density` and `slice`, raises `AmbiguousSelectorError`
at construction time.  In the code, `exclusive` merely *returns* the
violated check (`False` below) and `ElementTransform.__init__` discards the
result, so construction succeeds and yields a usable rule in both
double-specified cases: the claimed error is never raised. -/
theorem C1_ambiguous_selector_not_rejected :
    exclusive { name := some "x", type := some "y" } ["name", "type"] = false ∧
    (do
      let r ← ElementTransform.init { name := some "x", type := some "y" }
      r.matchF (.mk (some "x") (some "q") [] none)) = .ok true ∧
    exclusive { density := some 1, slice := some 2 } ["density", "slice"] = false ∧
    (do
      let r ← ElementTransform.init { density := some 1, slice := some 2 }
      r.matchF (.mk (some "x") (some "q") [] none)) = .ok true := by
  refine ⟨by decide, rfl, by decide, rfl⟩

/-- **C2** (code bug).  The spec says the marker of a composed value is
`':='` iff either operand carries `':='`.  `Value.__init__` stores the
marker in the attribute `_assign`, but `Composed.create` reads
`getattr(·, 'assign', '=')`; that attribute never exists, so the default
`'='` is always used and every successfully composed value carries `'='`,
whatever the operands' markers. -/
theorem C2_composed_marker_always_eq (a : Val) (x : String) (b : Val)
    (v : Val) (h : Composed.create a x b = .ok v) :
    v.assignAttr = some "=" := by
  unfold Composed.create at h
  rw [pygetattrD_assign, pygetattrD_assign] at h
  simp only [pyEq, String.reduceBEq, Bool.or_self] at h
  cases hfa : format_safe a with
  | error e => rw [hfa] at h; simp [bind, Except.bind] at h
  | ok fa =>
    cases hfb : format_safe b with
    | error e => rw [hfa, hfb] at h; simp [bind, Except.bind] at h
    | ok fb =>
      rw [hfa, hfb] at h
      simp only [bind, Except.bind, Bool.false_eq_true, if_false,
        Except.ok.injEq] at h
      subst h
      rfl

/-- **C2 witness**: composing `Identifier('pi', ':=')` with
`Identifier('x', '=')` under `+` succeeds, and the theorem applies: the
result carries `'='` (where the spec expects `':='`). -/
theorem C2_composed_marker_always_eq_witness :
    (Val.composed "pi + x" "=").assignAttr = some "=" :=
  C2_composed_marker_always_eq (.ident "pi" ":=") "+" (.ident "x" "=")
    (.composed "pi + x" "=") rfl

/-- **C7 counterexample**.  On the quadrupole `{K1: 3, L: 2.5}` with ratio
`0.5`, the code yields `KNL = [0, K1*L*ratio] = [0, 3.75]`, not the claimed
`[0, 7.5]` (the repository's own test asserts `7.5`, the value of `K1*L`
without the ratio). -/
theorem C7_makethin_quad_cex :
    (rescale_makethin quadEx (1/2)).map (fun e => e.args.lookup "KNL") =
      .ok (some (.vlist [.num 0, .num (15/4)])) ∧
    (15 : ℚ)/4 ≠ 15/2 := by
  constructor
  · norm_num +decide [rescale_makethin, quadEx, Element.base_type, baseTruthy,
      ostrieq, strieq, Element.all_args, Args.update, Args.set,
      Element.hasKey, Args.lookup, Element.getIt, Element.pop, Element.delIt,
      Element.setIt, Element.withArgs, Element.args, Element.name,
      Element.base, Element.copy, Element.etype, Args.erase, pyArith,
      Val.isSymbolic, List.foldl, bind, Except.bind, pure, Except.pure,
      Except.map, Functor.map]
  · norm_num

/-- **C7 as amended**: rescale-makethin on the quadrupole `{K1: 3, L: 2.5}`
with ratio `0.5` produces a `multipole` with `KNL = [0, K1*L*ratio] =
[0, 3.75]`, `lrad = L*ratio = 1.25`, and no `K1` (nor `L`) argument. -/
theorem C7_makethin_quad_amended :
    rescale_makethin quadEx (1/2) =
      .ok (.mk none (some "multipole")
        [("KNL", .vlist [.num 0, .num (15/4)]), ("lrad", .num (5/4))] none) := by
  norm_num +decide [rescale_makethin, quadEx, Element.base_type, baseTruthy,
    ostrieq, strieq, Element.all_args, Args.update, Args.set, Element.hasKey,
    Args.lookup, Element.getIt, Element.pop, Element.delIt, Element.setIt,
    Element.withArgs, Element.args, Element.name, Element.base, Element.copy,
    Element.etype, Args.erase, pyArith, Val.isSymbolic, List.foldl,
    bind, Except.bind, pure, Except.pure, Except.map, Functor.map]

/-- **C8**.  Argument lookup returns the element's own argument when the key
is in its own args, and otherwise recurses into the base chain; on the
spec's three-layer chain the lookups give `a2`, `b0`, `c0`, `d1`. -/
theorem C8_lookup_prototype_chain :
    (∀ (nm ty : Option String) (args : Args) (base : Option Node)
       (k : String) (v : Val), args.lookup k = some v →
        Element.getIt (.mk nm ty args base) k = .ok v) ∧
    (∀ (nm ty : Option String) (args : Args) (b : Element) (k : String),
        args.lookup k = none →
        Element.getIt (.mk nm ty args (some (.elem b))) k = b.getIt k) ∧
    chainLeaf.getIt "a" = .ok (.str "a2") ∧
    chainLeaf.getIt "b" = .ok (.str "b0") ∧
    chainLeaf.getIt "c" = .ok (.str "c0") ∧
    chainLeaf.getIt "d" = .ok (.str "d1") := by
  refine ⟨?_, ?_, rfl, rfl, rfl, rfl⟩
  · intro nm ty args base k v h
    rcases base with _ | n
    · rw [Element.getIt.eq_2 _ _ _ _ _ (by intro b hb; simp at hb), h]
    · cases n with
      | elem b => rw [Element.getIt.eq_1, h]
      | text s => rw [Element.getIt.eq_2 _ _ _ _ _ (by intro b hb; simp at hb), h]
      | line lm ls => rw [Element.getIt.eq_2 _ _ _ _ _ (by intro b hb; simp at hb), h]
  · intro nm ty args b k h
    rw [Element.getIt.eq_1, h]
    simp [baseTruthy]

/-- **C8 witness**: the general clauses applied at the concrete chain. -/
theorem C8_lookup_prototype_chain_witness :
    Element.getIt (.mk none none [("a", Val.str "a2")]
      (some (.elem chainMid))) "a" = .ok (.str "a2") :=
  C8_lookup_prototype_chain.1 none none [("a", Val.str "a2")]
    (some (.elem chainMid)) "a" (.str "a2") rfl

/-- **C10**.  `Element.__eq__` compares only name, type and the element's
own argument dictionary — the base is ignored — so two elements with equal
own data compare equal even when their bases supply different inherited
arguments (here `m = 'm1'` vs `m = 'm2'`, so the merged argument sets
differ). -/
theorem C10_eq_ignores_base :
    (∀ (nm ty : Option String) (args : Args) (b1 b2 : Option Node),
        args.Pairwise (fun p q => strieq p.1 q.1 = false) →
        Element.beq (.mk nm ty args b1) (.mk nm ty args b2) = true) ∧
    Element.beq eqX eqY = true ∧
    eqX.all_args = .ok [("m", .str "m1"), ("k", .str "v")] ∧
    eqY.all_args = .ok [("m", .str "m2"), ("k", .str "v")] ∧
    Args.beq [("m", .str "m1"), ("k", .str "v")]
             [("m", .str "m2"), ("k", .str "v")] = false := by
  refine ⟨?_, rfl, rfl, rfl, by decide⟩
  intro nm ty args b1 b2 hwf
  have h1 : ostrieq nm nm = true := by cases nm <;> simp [ostrieq, strieq_self]
  have h2 : ostrieq ty ty = true := by cases ty <;> simp [ostrieq, strieq_self]
  have h3 : Args.beq args args = true := by
    unfold Args.beq
    simp only [beq_self_eq_true, Bool.true_and, List.all_eq_true]
    intro p hp
    rw [Args.lookup_of_mem args hwf hp]
    exact pyEq_refl p.2
  unfold Element.beq
  simp [Element.name, Element.etype, Element.args, h1, h2, h3]

/-- **C6**.  For a sequence whose head carries no `refer` argument of its
own, `Sequence.detect` injects `refer='entry'` into the detected head, so
the transformation's multiplier lookup `head.get('refer', 'centre')`
resolves to `entry` and the offset multiplier used for positioning is `0`
(`SequenceTransform.__call__` alone would default to `centre`, but every
sequence it receives has passed through `detect`). -/
theorem C6_detect_injects_entry_refer (hd : Element) (body : List Node)
    (e : Node) (inl : Bool)
    (hty : nodeTypeIs (.elem hd) "sequence" = true)
    (hnorefer : hd.args.lookup "refer" = none)
    (hb : ∀ x ∈ body, nodeTypeIs x "endsequence" = false)
    (he : nodeTypeIs e "endsequence" = true) :
    Sequence.detect (.elem hd :: (body ++ [e])) inl =
      .ok [DocNode.seq
        ⟨Node.elem (hd.withArgs (hd.args ++ [("refer", Val.str "entry")])) ::
          (body ++ [e]), []⟩] ∧
    (hd.withArgs (hd.args ++ [("refer", Val.str "entry")])).getD "refer"
      (.str "centre") = .ok (.str "entry") ∧
    offsetsLookup (pyStr (.str "entry")) = .ok 0 := by
  refine ⟨?_, ?_, rfl⟩
  · unfold Sequence.detect
    rw [detectGo.eq_def]
    simp only [hty, if_true]
    rw [show Args.setdefault hd.args "refer" (Val.str "entry") =
          hd.args ++ [("refer", Val.str "entry")] by
        simp [Args.setdefault, hnorefer]]
    rw [detectGo_pending_run _ _ _ _ _ he body [] hb]
    rw [show detectGo (Node.elem hd :: (body ++ [e])) inl none [] = .ok []
          from rfl]
    simp [bind, Except.bind]
  · refine Element.getD_of_getIt _ _ _ _ ?_
    refine Element.getIt_own _ _ _ ?_
    rw [Element.args_withArgs]
    exact Args.lookup_append_new hd.args "refer" (.str "entry") hnorefer

/-- **C6 witness**: the theorem applied to the concrete sequence
`S: sequence; Q: quadrupole, L=2; endsequence;`. -/
theorem C6_detect_injects_entry_refer_witness :
    Sequence.detect (.elem headNoRefer :: ([Node.elem quadNoAt] ++
        [Node.elem endSeqElem])) false =
      .ok [DocNode.seq
        ⟨Node.elem (headNoRefer.withArgs (headNoRefer.args ++
            [("refer", Val.str "entry")])) ::
          ([Node.elem quadNoAt] ++ [Node.elem endSeqElem]), []⟩] ∧
    (headNoRefer.withArgs (headNoRefer.args ++
        [("refer", Val.str "entry")])).getD "refer" (.str "centre") =
      .ok (.str "entry") ∧
    offsetsLookup (pyStr (.str "entry")) = .ok 0 :=
  C6_detect_injects_entry_refer headNoRefer [Node.elem quadNoAt]
    (Node.elem endSeqElem) false (by decide) rfl
    (by intro x hx; simp at hx; subst hx; decide) (by decide)

/-- **C3 counterexample**.  In the sequence `S: sequence, refer=entry;
Q: quadrupole, at=5, L=2; endsequence;` the single body element has total
length 2, but the transformed head's `L` is 7: with an explicit `at`, the
running position jumps to the at-derived entry offset plus the element
length (`5 + 2`), so `head.L` is not the summed body length. -/
theorem C3_head_L_cex :
    (do
      let rules ← SequenceTransform.init []
      let s ← SequenceTransform.callSeq rules [] seqWithAt
      match s.elements.head? with
      | some (.elem h) => Except.ok (h.args.lookup "L")
      | _ => Except.error PyErr.indexError) = .ok (some (.num 7)) ∧
    quadAt5.args.lookup "L" = some (.num 2) ∧ (7 : ℚ) ≠ 2 := by
  have h1 : (rebased [] (Element.mk (some "Q") (some "quadrupole")
      [("at", Val.num 5), ("L", Val.num 2)] none)).getD "L" (Val.num 0) =
      Except.ok (Val.num 2) := rfl
  have h2 : (rebased [] (Element.mk (some "Q") (some "quadrupole")
      [("at", Val.num 5), ("L", Val.num 2)] none)).getIt "at" =
      Except.ok (Val.num 5) := rfl
  have h3 : (Element.mk (some "S") (some "sequence")
      [("refer", Val.str "entry")] none).getD "refer" (Val.str "centre") =
      Except.ok (Val.str "entry") := rfl
  refine ⟨?_, rfl, by norm_num⟩
  norm_num +decide [SequenceTransform.init, ElementTransform.init,
    SequenceTransform.callSeq, callStep, transformElem, firstMatch,
    ETRule.slice, uniform_slice_distribution, rescale_thick,
    Defs.get, offsetsLookup, SequenceTransform.offsets, seqWithAt,
    h1, h2, h3, pyArith, Val.isSymbolic, pyStr,
    Element.copy, Element.setIt, Element.withArgs, Element.withName,
    Element.args, Element.name, Element.etype, Args.set, Args.lookup,
    truthyStr, Node.ntype, headEntry, quadAt5, endSeqElem,
    strieq, bind, Except.bind, pure, Except.pure, Except.map, Functor.map,
    List.foldlM, List.mapM, List.mapM.loop, List.range, List.range.loop,
    CallAcc.position, CallAcc.templates, CallAcc.elements]
/-- A missing key on an element without a base is a `KeyError`. -/
theorem Element.getIt_miss_nobase (nm ty : Option String) (args : Args)
    (k : String) (h : Args.lookup args k = none) :
    Element.getIt (.mk nm ty args none) k = .error (.keyError k) := by
  rw [Element.getIt.eq_2 _ _ _ _ _ (by intro b hb; simp at hb), h]
  rfl

/-- `base_type` of an element without a base is its own type. -/
theorem Element.base_type_nobase (nm ty : Option String) (args : Args) :
    Element.base_type (.mk nm ty args none) = .ok ty := rfl

/-- Setting one key does not affect lookup of a different key. -/
theorem Args.lookup_set_ne (a : Args) (k' k : String) (v : Val)
    (h : strieq k' k = false) :
    (Args.set a k' v).lookup k = a.lookup k := by
  induction a with
  | nil => simp [Args.set, Args.lookup, h]
  | cons p rest ih =>
    by_cases hp : strieq p.1 k' = true
    · have hpk : strieq p.1 k = false := by
        by_contra hc
        simp only [Bool.not_eq_false] at hc
        have e1 : pyLower p.1 = pyLower k' := by
          simpa [strieq] using hp
        have e2 : pyLower p.1 = pyLower k := by
          simpa [strieq] using hc
        have : strieq k' k = true := by
          simp [strieq, ← e1, e2]
        simp [this] at h
      simp [Args.set, Args.lookup, hp, hpk]
    · simp only [Bool.not_eq_true] at hp
      by_cases hpk : strieq p.1 k = true
      · simp [Args.set, Args.lookup, hp, hpk]
      · simp only [Bool.not_eq_true] at hpk
        simp [Args.set, Args.lookup, hp, hpk, ih]

/-- Pointwise-successful `mapM` over `Except`. -/
theorem mapM_ok_of_forall {α β : Type} (f : α → Except PyErr β) (g : α → β) :
    ∀ (xs : List α), (∀ x ∈ xs, f x = .ok (g x)) →
      xs.mapM f = .ok (xs.map g) := by
  intro xs
  induction xs with
  | nil => intro _; rfl
  | cons x rest ih =>
    intro h
    rw [List.mapM_cons, h x (by simp), ih (fun y hy => h y (by simp [hy]))]
    simp [bind, Except.bind, pure, Except.pure]

/-- A rule produced by `firstMatch` is one of the rules in the list. -/
theorem firstMatch_mem : ∀ (ts : List ETRule) (e : Element) (t : ETRule),
    firstMatch ts e = .ok (some t) → t ∈ ts := by
  intro ts
  induction ts with
  | nil => intro e t h; simp [firstMatch] at h
  | cons t0 rest ih =>
    intro e t h
    unfold firstMatch at h
    cases hm : t0.matchF e with
    | error err => rw [hm] at h; simp [bind, Except.bind] at h
    | ok m =>
      rw [hm] at h
      simp only [bind, Except.bind] at h
      cases m with
      | true =>
        simp only [if_true, Except.ok.injEq, Option.some.injEq] at h
        simp [← h]
      | false =>
        simp only [Bool.false_eq_true, if_false] at h
        exact List.mem_cons_of_mem _ (ih e t h)

/-- Every rule built by `ElementTransform.__init__` resolves the position of
an element without a reachable `at` argument to the running offset (both
the `use_at` and the `not use_at` branch do). -/
theorem init_pos_no_at (s : Selector) (r : ETRule)
    (h : ElementTransform.init s = .ok r) :
    ∀ (e : Element) (len off : Val) (rf : ℚ),
      e.getIt "at" = .error (.keyError "at") →
      r.get_position e len off rf = .ok off := by
  intro e len off rf hat
  unfold ElementTransform.init at h
  by_cases h1 : ((s.style.getD "uniform") == "uniform") = true
  · simp only [h1, if_true, bind, Except.bind, pure, Except.pure,
      Except.ok.injEq] at h
    subst h
    by_cases h2 : s.use_at.getD true = true
    · simp only [h2, if_true, hat]
    · simp only [Bool.not_eq_true] at h2
      simp only [h2, Bool.false_eq_true, if_false]
  · by_cases h2 : ((s.style.getD "uniform") == "loop") = true
    · simp only [Bool.not_eq_true] at h1
      simp only [h1, Bool.false_eq_true, if_false, h2, if_true, bind,
        Except.bind, pure, Except.pure, Except.ok.injEq] at h
      subst h
      by_cases h3 : s.use_at.getD true = true
      · simp only [h3, if_true, hat]
      · simp only [Bool.not_eq_true] at h3
        simp only [h3, Bool.false_eq_true, if_false]
    · simp only [Bool.not_eq_true] at h1 h2
      simp only [h1, h2, Bool.false_eq_true, if_false, bind,
        Except.bind] at h
      simp at h

/-- Members of a successful `mapM ElementTransform.init` come from some
selector. -/
theorem mapM_init_mem : ∀ (sels : List Selector) (ts : List ETRule),
    sels.mapM ElementTransform.init = .ok ts →
    ∀ r ∈ ts, ∃ sel, ElementTransform.init sel = .ok r := by
  intro sels
  induction sels with
  | nil =>
    intro ts h r hr
    simp only [List.mapM_nil, pure, Except.pure, Except.ok.injEq] at h
    subst h
    cases hr
  | cons s ss ih =>
    intro ts h r hr
    rw [List.mapM_cons] at h
    cases hs : ElementTransform.init s with
    | error err => rw [hs] at h; simp [bind, Except.bind] at h
    | ok t0 =>
      rw [hs] at h
      simp only [bind, Except.bind] at h
      cases hrest : ss.mapM ElementTransform.init with
      | error err => rw [hrest] at h; simp at h
      | ok ts' =>
        rw [hrest] at h
        simp only [pure, Except.pure, Except.ok.injEq] at h
        subst h
        rcases List.mem_cons.mp hr with rfl | hmem
        · exact ⟨s, hs⟩
        · exact ih ts' hrest r hmem

/-- Every rule in a successful `SequenceTransform.__init__` rule list was
built by `ElementTransform.__init__` from some selector. -/
theorem SequenceTransform.init_mem (sels : List Selector) (ts : List ETRule)
    (h : SequenceTransform.init sels = .ok ts) :
    ∀ r ∈ ts, ∃ sel, ElementTransform.init sel = .ok r := by
  unfold SequenceTransform.init at h
  cases hm : sels.mapM ElementTransform.init with
  | error err => rw [hm] at h; simp [bind, Except.bind] at h
  | ok ts1 =>
    rw [hm] at h
    simp only [bind, Except.bind] at h
    cases hca : ElementTransform.init {} with
    | error err => rw [hca] at h; simp at h
    | ok ca =>
      rw [hca] at h
      simp only [Except.ok.injEq] at h
      subst h
      intro r hr
      rcases List.mem_append.mp hr with hmem | hmem
      · exact mapM_init_mem sels ts1 hm r hmem
      · rcases List.mem_singleton.mp hmem with rfl
        exact ⟨{}, hca⟩

/-- The new running offset returned by `slice` for an element without a
reachable `at` and with numeric `elem.get('L', 0)` is the old offset plus
the element length, whatever the other policy axes do. -/
theorem slice_newoff_no_at (t : ETRule) (e : Element) (p refer l : ℚ)
    (hpos : t.get_position e (.num l) (.num p) refer = .ok (.num p))
    (hlen : e.getD "L" (.num 0) = .ok (.num l))
    (trip : List Element × List Node × Val)
    (h : t.slice e (.num p) refer = .ok trip) :
    trip.2.2 = .num (p + l) := by
  unfold ETRule.slice at h
  rw [hlen] at h
  simp only [bind, Except.bind] at h
  rw [hpos] at h
  cases hn : t.get_slice_num (.num l) with
  | error err => rw [hn] at h; simp at h
  | ok n0 =>
    rw [hn] at h
    simp only [] at h
    cases hrs : t.rescale e (1 / (((if n0 = 0 then 1 else n0) : ℤ) : ℚ)) with
    | error err => rw [hrs] at h; simp at h
    | ok scaled =>
      rw [hrs] at h
      simp only [] at h
      cases hds : t.distribution (t.stripelem scaled) (.num p) refer
          (if n0 = 0 then 1 else n0)
          (l / (((if n0 = 0 then 1 else n0) : ℤ) : ℚ)) with
      | error err => rw [hds] at h; simp at h
      | ok elems =>
        rw [hds] at h
        rw [pyArith_num_add] at h
        simp only [Except.ok.injEq] at h
        rw [← h]

/-- One body step of `SequenceTransform.__call__` advances the numeric
running position by exactly the node's length when the node carries no
reachable `at`. -/
theorem callStep_no_at (transforms : List ETRule) (defs : Defs) (refer : ℚ)
    (hpos : ∀ r ∈ transforms, ∀ (e : Element) (len off : Val) (rf : ℚ),
      e.getIt "at" = .error (.keyError "at") →
      r.get_position e len off rf = .ok off)
    (n : Node) (hn : NodeNoAt defs n) (tl el : List Node) (p : ℚ)
    (acc1 : CallAcc)
    (h : callStep transforms defs refer ⟨tl, el, .num p⟩ n = .ok acc1) :
    acc1.position = .num (p + nodeLen defs n) := by
  cases n with
  | text s =>
    unfold callStep at h
    simp only [Node.ntype, truthyStr, Bool.false_eq_true, if_false,
      Except.ok.injEq] at h
    rw [← h]
    simp [nodeLen]
  | line nm elems =>
    unfold callStep at h
    simp [Node.ntype, truthyStr] at h
  | elem e =>
    unfold callStep at h
    simp only [Node.ntype] at h
    by_cases hty : truthyStr e.etype = true
    · rw [if_pos hty] at h
      unfold transformElem at h
      simp only [bind, Except.bind] at h
      unfold NodeNoAt at hn
      obtain ⟨hat, l, hlen⟩ := hn hty
      cases hfm : firstMatch transforms (rebased defs e) with
      | error err => rw [hfm] at h; simp at h
      | ok ot =>
        rw [hfm] at h
        cases ot with
        | none => simp at h
        | some t =>
          simp only [] at h
          cases hsl : t.slice (rebased defs e) (.num p) refer with
          | error err => rw [hsl] at h; simp at h
          | ok trip =>
            rw [hsl] at h
            have hmem := firstMatch_mem transforms (rebased defs e) t hfm
            have hoff := slice_newoff_no_at t (rebased defs e) p refer l
              (hpos t hmem (rebased defs e) (.num l) (.num p) refer hat)
              hlen trip hsl
            obtain ⟨templ, elems, pos⟩ := trip
            simp only [Except.ok.injEq] at h
            rw [← h]
            simp only [] at hoff
            rw [hoff]
            simp [nodeLen, hty, hlen]
    · rw [if_neg hty] at h
      simp only [Except.ok.injEq] at h
      rw [← h]
      simp only [Bool.not_eq_true] at hty
      simp [nodeLen, hty]

/-- Folding the body with no reachable `at` arguments advances the position
by the summed node lengths. -/
theorem foldBody_no_at (transforms : List ETRule) (defs : Defs) (refer : ℚ)
    (hpos : ∀ r ∈ transforms, ∀ (e : Element) (len off : Val) (rf : ℚ),
      e.getIt "at" = .error (.keyError "at") →
      r.get_position e len off rf = .ok off) :
    ∀ (body : List Node) (tl el : List Node) (p : ℚ) (acc' : CallAcc),
      (∀ n ∈ body, NodeNoAt defs n) →
      body.foldlM (callStep transforms defs refer) ⟨tl, el, .num p⟩ = .ok acc' →
      acc'.position = .num (p + (body.map (nodeLen defs)).sum) := by
  intro body
  induction body with
  | nil =>
    intro tl el p acc' _ h
    simp only [List.foldlM_nil, pure, Except.pure, Except.ok.injEq] at h
    rw [← h]
    simp
  | cons n rest ih =>
    intro tl el p acc' hno h
    rw [List.foldlM_cons] at h
    simp only [bind, Except.bind] at h
    cases hstep : callStep transforms defs refer ⟨tl, el, .num p⟩ n with
    | error err => rw [hstep] at h; simp at h
    | ok acc1 =>
      rw [hstep] at h
      have hp1 := callStep_no_at transforms defs refer hpos n
        (hno n (by simp)) tl el p acc1 hstep
      obtain ⟨t1, e1, pos1⟩ := acc1
      simp only [] at hp1
      subst hp1
      have := ih t1 e1 (p + nodeLen defs n) acc'
        (fun m hm => hno m (by simp [hm])) h
      rw [this]
      simp only [List.map_cons, List.sum_cons]
      ring_nf

/-- **C3 as amended**.  `head.L` is the final running offset; when no body
element carries a reachable explicit `at` argument (and the rules come from
`ElementTransform.__init__`), that offset equals the summed length of the
original body elements (with an explicit `at` the position jumps, as the
counterexample shows). -/
theorem C3_head_L_sum_no_at (sels : List Selector) (transforms : List ETRule)
    (hts : SequenceTransform.init sels = .ok transforms)
    (defs : Defs) (hd : Element) (body : List Node) (tl : Node)
    (pre : List Node) (s : Seqn)
    (hok : SequenceTransform.callSeq transforms defs
      ⟨.elem hd :: (body ++ [tl]), pre⟩ = .ok s)
    (hnoat : ∀ n ∈ body, NodeNoAt defs n) :
    ∃ h' rest, s.elements = .elem h' :: rest ∧
      h'.args.lookup "L" = some (.num ((body.map (nodeLen defs)).sum)) := by
  have hpos : ∀ r ∈ transforms, ∀ (e : Element) (len off : Val) (rf : ℚ),
      e.getIt "at" = .error (.keyError "at") →
      r.get_position e len off rf = .ok off := by
    intro r hr e len off rf hat
    obtain ⟨sel, hsel⟩ := SequenceTransform.init_mem sels transforms hts r hr
    exact init_pos_no_at sel r hsel e len off rf hat
  unfold SequenceTransform.callSeq at hok
  simp only [List.head?_cons, Element.copy, bind, Except.bind] at hok
  rw [show ((Node.elem hd :: (body ++ [tl])).drop 1).dropLast = body by
    simp] at hok
  rw [show (Node.elem hd :: (body ++ [tl])).getLast? = some tl by
    rw [show Node.elem hd :: (body ++ [tl]) =
        (Node.elem hd :: body) ++ [tl] by simp]
    exact List.getLast?_concat _] at hok
  cases hrv : hd.getD "refer" (.str "centre") with
  | error err => rw [hrv] at hok; simp at hok
  | ok refv =>
    rw [hrv] at hok
    simp only [] at hok
    cases hrf : offsetsLookup (pyStr refv) with
    | error err => rw [hrf] at hok; simp at hok
    | ok refer =>
      rw [hrf] at hok
      simp only [] at hok
      cases hfold : body.foldlM (callStep transforms defs refer)
          ⟨[], [], .num 0⟩ with
      | error err => rw [hfold] at hok; simp at hok
      | ok acc =>
        rw [hfold] at hok
        have hacc := foldBody_no_at transforms defs refer hpos body [] [] 0
          acc hnoat hfold
        simp only [Except.ok.injEq] at hok
        subst hok
        rw [zero_add] at hacc
        refine ⟨hd.setIt "L" acc.position, acc.elements ++ [tl], rfl, ?_⟩
        rw [hacc]
        unfold Element.setIt
        rw [Element.args_withArgs, Args.lookup_set_self]

/-- **C3 amended witness**: the theorem applied to the concrete sequence
`S: sequence, refer=entry; Q: quadrupole, L=2; endsequence;`, whose
transformed head gets `L = 2`. -/
theorem C3_head_L_sum_no_at_witness :
    ∃ h' rest,
      (Seqn.mk (Node.elem (headEntry.setIt "L" (Val.num 2)) ::
        ([Node.elem (quadNoAt.setIt "at" (Val.num 0))] ++
          [Node.elem endSeqElem])) []).elements = .elem h' :: rest ∧
      h'.args.lookup "L" =
        some (.num (([Node.elem quadNoAt].map (nodeLen [])).sum)) := by
  refine C3_head_L_sum_no_at [] _ rfl [] headEntry [Node.elem quadNoAt]
    (Node.elem endSeqElem) [] _ ?_ ?_
  · norm_num +decide [SequenceTransform.init, ElementTransform.init,
      SequenceTransform.callSeq, callStep, transformElem, firstMatch,
      ETRule.slice, uniform_slice_distribution, rescale_thick, rebased,
      Defs.get, offsetsLookup, SequenceTransform.offsets,
      Element.copy, Element.setIt, Element.withArgs, Element.withName,
      Element.withBase, Element.args, Element.name, Element.etype,
      Element.base, Args.set, Args.lookup, Element.getD, Element.getIt,
      truthyStr, Node.ntype, headEntry, quadNoAt, endSeqElem,
      strieq, pyStr, pyArith, Val.isSymbolic,
      bind, Except.bind, pure, Except.pure,
      List.foldlM, List.mapM, List.mapM.loop, List.range, List.range.loop,
      CallAcc.position, CallAcc.templates, CallAcc.elements]
  · intro n hn
    simp only [List.mem_singleton] at hn
    subst hn
    refine fun _ => ⟨rfl, 2, rfl⟩

/-- What `uniform_slice_distribution` emits on a base-free named element:
one fresh copy per slice index, positioned at
`offset + (i + refer) * slice_len`, renamed to `name..i` iff more than one
slice is requested. -/
theorem uniform_dist_spec (nm : String) (hnm : nm ≠ "") (ty : Option String)
    (a : Args) (off refer slice_len : ℚ) (n : ℤ) :
    uniform_slice_distribution (.mk (some nm) ty a none) (.num off) refer n
        slice_len =
      .ok ((List.range n.toNat).map (fun (i : ℕ) =>
        Node.elem (.mk
          (if 1 < n then some (nm ++ ".." ++ toString i) else some nm)
          ty
          (Args.set a "at" (.num (off + ((i : ℚ) + refer) * slice_len)))
          none))) := by
  unfold uniform_slice_distribution
  refine mapM_ok_of_forall _ _ _ ?_
  intro i hi
  simp only [Element.copy, pyArith_num_add, bind, Except.bind,
    Element.setIt, Element.withArgs, Element.withName, Element.name,
    Element.args, truthyStr]
  by_cases h1n : 1 < n
  · simp [hnm, h1n, pure, Except.pure, Option.getD]
  · simp [hnm, h1n, pure, Except.pure]

/-- **C5**.  A rule `{slice: N}` (N ≥ 1, uniform style) slices an element of
positive numeric length `L` (no explicit `at`, no base, named, non-`sbend`)
into exactly N slices: no templates, slice `i` is placed at
`offset + (i+refer)·(L/N)` and renamed `name..i` when N > 1, consecutive
offsets increase strictly by `slice_len = L/N`, each slice carries
`L = L/N`, and the slice lengths sum back to `L`; the returned running
offset is `offset + L`. -/
theorem C5_uniform_slice_count_offsets (n : ℤ) (hn : 1 ≤ n) (nm : String)
    (hnm : nm ≠ "") (ty : Option String)
    (hty : ostrieq ty (some "sbend") = false) (args : Args)
    (l off refer : ℚ) (hL : args.lookup "L" = some (.num l))
    (hat : args.lookup "at" = none) (hl : 0 < l) :
    ElementTransform.init { slice := some n } = .ok (sliceRule n) ∧
    (sliceRule n).slice (.mk (some nm) ty args none) (.num off) refer =
      .ok ([],
        (List.range n.toNat).map (fun (i : ℕ) =>
          Node.elem (.mk
            (if 1 < n then some (nm ++ ".." ++ toString i) else some nm)
            ty
            (Args.set (Args.set args "L" (.num (l / (n : ℚ)))) "at"
              (.num (off + ((i : ℚ) + refer) * (l / (n : ℚ)))))
            none)),
        .num (off + l)) ∧
    ((List.range n.toNat).map (fun (i : ℕ) =>
        Node.elem (.mk
          (if 1 < n then some (nm ++ ".." ++ toString i) else some nm)
          ty
          (Args.set (Args.set args "L" (.num (l / (n : ℚ)))) "at"
            (.num (off + ((i : ℚ) + refer) * (l / (n : ℚ)))))
          none))).length = n.toNat ∧
    (∀ i : ℕ,
      (off + (((i : ℚ) + 1) + refer) * (l / (n : ℚ))) =
        (off + ((i : ℚ) + refer) * (l / (n : ℚ))) + l / (n : ℚ) ∧
      (off + ((i : ℚ) + refer) * (l / (n : ℚ))) <
        (off + (((i : ℚ) + 1) + refer) * (l / (n : ℚ)))) ∧
    (((List.range n.toNat).map (fun (i : ℕ) =>
        Node.elem (.mk
          (if 1 < n then some (nm ++ ".." ++ toString i) else some nm)
          ty
          (Args.set (Args.set args "L" (.num (l / (n : ℚ)))) "at"
            (.num (off + ((i : ℚ) + refer) * (l / (n : ℚ)))))
          none))).map sliceLenOf).sum = l := by
  have hnpos : (0 : ℚ) < (n : ℚ) := by
    exact_mod_cast lt_of_lt_of_le one_pos hn
  have hn0 : (n : ℚ) ≠ 0 := ne_of_gt hnpos
  have hfields : sliceRule n = ⟨
      fun _ => .ok true,
      fun elem elem_len offset refer =>
        match elem.getIt "at" with
        | .ok atv => do
            let prod ← pyArith elem_len "*" (.num refer)
            pyArith atv "-" prod
        | .error (.keyError _) => .ok offset
        | .error err => .error err,
      fun _ => .ok n,
      rescale_thick,
      fun _ => [], fun elem => elem,
      uniform_slice_distribution⟩ := rfl
  have hne : n ≠ 0 := by omega
  have hgd : Element.getD (.mk (some nm) ty args none) "L" (.num 0) =
      .ok (.num l) :=
    Element.getD_of_getIt _ _ _ _ (Element.getIt_own _ _ _ (by
      simpa [Element.args] using hL))
  have hmiss : Element.getIt (.mk (some nm) ty args none) "at" =
      .error (.keyError "at") :=
    Element.getIt_miss_nobase _ _ _ _ hat
  have hscaled : rescale_thick (.mk (some nm) ty args none) (1 / (n : ℚ)) =
      .ok (.mk (some nm) ty (Args.set args "L" (.num (l / (n : ℚ)))) none) := by
    rcases eq_or_lt_of_le hn with h1 | h1
    · have hn1 : n = 1 := h1.symm
      subst hn1
      unfold rescale_thick
      simp only [Int.cast_one, ne_eq, one_ne_zero, not_false_eq_true,
        div_self, if_true, div_one]
      rw [Args.set_lookup_eq args "L" (.num l) hL]
    · have hr1 : (1 : ℚ) / (n : ℚ) ≠ 1 := by
        intro hc
        have h2 : (1 : ℚ) = (n : ℚ) := by
          field_simp at hc
          linarith [hc]
        have h3 : (1 : ℚ) < (n : ℚ) := by exact_mod_cast h1
        linarith
      unfold rescale_thick
      rw [if_neg hr1]
      simp only [bind, Except.bind, Element.copy]
      rw [Element.getIt_own _ _ _ (by simpa [Element.args] using hL)]
      simp only [pyArith_num_mul]
      simp only [Element.setIt, Element.withArgs, Element.args,
        Element.base_type_nobase, hty, Bool.false_eq_true, if_false,
        Except.ok.injEq]
      rw [mul_one_div]
  refine ⟨rfl, ?_, by rw [List.length_map, List.length_range], ?_, ?_⟩
  · rw [hfields]
    unfold ETRule.slice
    simp only [bind, Except.bind]
    rw [hgd]
    simp only []
    rw [hmiss]
    simp only [if_neg hne]
    rw [hscaled]
    simp only []
    rw [uniform_dist_spec nm hnm ty _ off refer (l / (n : ℚ)) n]
    simp only [pyArith_num_add]
  · intro i
    constructor
    · ring
    · have hstep : (0 : ℚ) < l / (n : ℚ) := div_pos hl hnpos
      nlinarith [hstep]
  · have hmapmap : ∀ x ∈ List.range n.toNat,
        (sliceLenOf ∘ fun (i : ℕ) =>
          Node.elem (.mk
            (if 1 < n then some (nm ++ ".." ++ toString i) else some nm)
            ty
            (Args.set (Args.set args "L" (.num (l / (n : ℚ)))) "at"
              (.num (off + ((i : ℚ) + refer) * (l / (n : ℚ)))))
            none)) x = l / (n : ℚ) := by
      intro i _
      simp only [Function.comp, sliceLenOf, Element.args]
      rw [Args.lookup_set_ne _ "at" "L" _ (by decide),
        Args.lookup_set_self]
    rw [List.map_map]
    rw [List.map_congr_left hmapmap]
    rw [List.map_const']
    rw [List.sum_replicate]
    rw [List.length_range]
    rw [nsmul_eq_mul]
    have hcast : ((n.toNat : ℕ) : ℚ) = (n : ℚ) := by
      exact_mod_cast congrArg (fun z : ℤ => (z : ℚ))
        (Int.toNat_of_nonneg (by omega))
    rw [hcast]
    field_simp

/-- **C5 witness**: the slicing theorem applied to the spec's end-to-end
example `Q: quadrupole, L=2, K1=3` with rule `{slice: 2}`. -/
theorem C5_uniform_slice_count_offsets_witness :
    ElementTransform.init { slice := some (2 : ℤ) } = .ok (sliceRule 2) :=
  (C5_uniform_slice_count_offsets 2 (by decide) "Q" (by decide)
    (some "quadrupole") (by decide) [("L", Val.num 2), ("K1", Val.num 3)]
    2 0 0 rfl rfl (by norm_num)).1

/-- **C10 witness**: the general clause applied at the concrete elements. -/
theorem C10_eq_ignores_base_witness :
    Element.beq (.mk (some "E") (some "t") [("k", Val.str "v")]
        (some (.elem eqBase1)))
      (.mk (some "E") (some "t") [("k", Val.str "v")]
        (some (.elem eqBase2))) = true :=
  C10_eq_ignores_base.1 (some "E") (some "t") [("k", Val.str "v")]
    (some (.elem eqBase1)) (some (.elem eqBase2)) (by simp)

end Madseq
